import Mathlib

/-!
Shallow embedding of the review scheduling and queue-construction engine of
the japanesehelper repository (src/lib/srs.ts and src/lib/queue.ts), together
with theorems settling the frozen claims about it.

Numbers (timestamps, intervals, ease factors) are modelled as rationals; at
the quality values the code actually uses (4 and 2) every arithmetic step of
the source is exact in IEEE doubles as well, so the rational model is faithful.
JavaScript's `Array.prototype.sort` (stable, comparator-driven) is modelled by
a stable insertion sort; `Math.random`-driven Fisher-Yates shuffles take an
explicit random source as a parameter; `Map` iteration order (insertion order)
is modelled by association lists.
-/

namespace JH

/-! ### JavaScript string primitives, modelled over character lists -/

/-- JS whitespace characters removed by `String.prototype.trim` (ASCII part). -/
def isJsWS (c : Char) : Bool :=
  c == ' ' || c == '\t' || c == '\n' || c == '\r' || c == '\x0b' || c == '\x0c'

/-- Model of `String.prototype.trim`. -/
def jsTrim (s : String) : String :=
  ⟨((s.data.dropWhile isJsWS).reverse.dropWhile isJsWS).reverse⟩

/-- Model of `String.prototype.toLowerCase` (ASCII case folding). -/
def jsToLower (s : String) : String :=
  ⟨s.data.map Char.toLower⟩

/-- Does `needle` occur as a contiguous run inside `hay`? -/
def containsList (needle : List Char) : List Char → Bool
  | [] => needle.isEmpty
  | c :: t => needle.isPrefixOf (c :: t) || containsList needle t

/-- Model of `String.prototype.includes`. -/
def jsIncludes (s sub : String) : Bool :=
  containsList sub.data s.data

/-- Model of `String.prototype.startsWith`. -/
def jsStartsWith (s pre : String) : Bool :=
  pre.data.isPrefixOf s.data

/-- Model of `String.prototype.endsWith` with a one-character argument. -/
def jsEndsWithChar (s : String) (c : Char) : Bool :=
  s.data.getLast? == some c

/-- JS falsy-or on strings: `a || b` yields `b` when `a` is the empty string. -/
def jsOr (a b : String) : String :=
  if a = "" then b else a

/-- Strict code-point comparison of character lists (model of the string
comparison underlying `localeCompare`). -/
def strLtList : List Char → List Char → Bool
  | [], [] => false
  | [], _ :: _ => true
  | _ :: _, [] => false
  | a :: as, b :: bs =>
    if a < b then true
    else if b < a then false
    else strLtList as bs

/-- Strict code-point comparison of strings. -/
def strLt (a b : String) : Bool :=
  strLtList a.data b.data

/-- A word character for the JS regex class `\w`. -/
def isWordChar (c : Char) : Bool :=
  c.isAlphanum || c == '_'

/-- Does `word` occur starting exactly at the head of `s`, with `prev` the
character just before that position (`none` at the start of the string), with
word boundaries on both sides? -/
def hasWordAt (word : List Char) (prev : Option Char) (s : List Char) : Bool :=
  (match prev with
   | none => true
   | some c => !isWordChar c) &&
  word.isPrefixOf s &&
  (match s.drop word.length with
   | [] => true
   | c :: _ => !isWordChar c)

/-- Scan of all positions of `s` for a word-boundary occurrence of `word`. -/
def hasWordAux (word : List Char) : Option Char → List Char → Bool
  | prev, [] => hasWordAt word prev []
  | prev, c :: rest => hasWordAt word prev (c :: rest) || hasWordAux word (some c) rest

/-- Model of `new RegExp("\\b" + word + "\\b").test(s)` for a plain word. -/
def testWordBoundary (word s : String) : Bool :=
  hasWordAux word.data none s.data

/-! ### Data model (src/lib/models.ts) -/

/-- Card type tag: `'vocab' | 'verb' | 'sentence'`. -/
inductive CardType where
  | vocab
  | verb
  | sentence
deriving DecidableEq, Repr

/-- A flashcard (the fields the queue/scheduler engine reads). -/
structure Card where
  id : String
  deckId : String
  type : CardType
  pos : Option String := none
  prompt : String := ""
  answer : String := ""
  verbBaseKana : Option String := none
  verbBaseKanji : Option String := none
  verbForm : Option String := none
  tags : Option (List String) := none
deriving Repr

/-- A deck: a named ordered collection of card ids. -/
structure Deck where
  id : String
  name : String
  cardIds : List String
deriving Repr

/-- Per-card recall state (`CardSrs` in the source). -/
structure CardSrs where
  cardId : String
  due : ℚ
  intervalDays : ℚ
  easeFactor : ℚ
  repetitions : ℕ
  lapses : ℕ
  lastReviewed : Option ℚ := none
deriving Repr

/-- Per-card lifetime statistics. -/
structure CardStats where
  reviews : ℕ
  correct : ℕ
deriving Repr

/-- Vocabulary category used by the practice filter. -/
inductive VocabCategory where
  | noun
  | verb
  | adjective
  | adverb
  | connector
  | other
deriving DecidableEq, Repr

/-- Enabled/disabled flag per vocabulary category
(`Record<VocabCategory, boolean>`). -/
structure CategoryFlags where
  noun : Bool
  verb : Bool
  adjective : Bool
  adverb : Bool
  connector : Bool
  other : Bool
deriving DecidableEq, Repr

/-- Look up the flag of one category. -/
def CategoryFlags.get (f : CategoryFlags) : VocabCategory → Bool
  | .noun => f.noun
  | .verb => f.verb
  | .adjective => f.adjective
  | .adverb => f.adverb
  | .connector => f.connector
  | .other => f.other

/-- Per-deck practice filter; `categories` is optional because the source
guards it with `?? defaultVocabPracticeCategories()`. -/
structure VocabPracticeFilter where
  categories : Option CategoryFlags
deriving Repr

/-- Application state snapshot (the maps are modelled as partial functions). -/
structure AppState where
  decks : String → Option Deck
  cards : String → Option Card
  srs : String → Option CardSrs
  stats : String → Option CardStats
  vocabPracticeFilters : String → Option VocabPracticeFilter

/-! ### Scheduler (src/lib/srs.ts) -/

/-- A review outcome (`ReviewResult`). -/
structure ReviewResult where
  correct : Bool

/-- `defaultSrs`: the lazily created recall state of a never-reviewed card. -/
def defaultSrs (cardId : String) (now : ℚ) : CardSrs :=
  { cardId := cardId
    due := now
    intervalDays := 0
    easeFactor := 2.5
    repetitions := 0
    lapses := 0
    lastReviewed := none }

/-- `clamp(n, min, max)` from srs.ts. -/
def clamp (n mn mx : ℚ) : ℚ :=
  max mn (min mx n)

/-- `Math.round`: round half toward positive infinity. -/
def jsRound (q : ℚ) : ℤ :=
  ⌊q + 1 / 2⌋

/-- `applySm2`: the SM-2 variant scheduler step. -/
def applySm2 (prev : CardSrs) (result : ReviewResult) (now : ℚ) : CardSrs :=
  let quality : ℤ := if result.correct then 4 else 2
  if quality < 3 then
    let intervalDays : ℚ := 1
    let due := now + intervalDays * (24 * 60 * 60 * 1000)
    { prev with
      repetitions := 0
      intervalDays := intervalDays
      lapses := prev.lapses + 1
      due := due
      lastReviewed := some now }
  else
    let repetitions := prev.repetitions + 1
    let intervalDays : ℚ :=
      if repetitions = 1 then 1
      else if repetitions = 2 then 6
      else (jsRound (prev.intervalDays * prev.easeFactor) : ℚ)
    let easeFactor :=
      clamp (prev.easeFactor + (0.1 - (5 - (quality : ℚ)) * (0.08 + (5 - (quality : ℚ)) * 0.02)))
        1.3 3.0
    let due := now + intervalDays * (24 * 60 * 60 * 1000)
    { prev with
      easeFactor := easeFactor
      repetitions := repetitions
      intervalDays := intervalDays
      lapses := prev.lapses
      due := due
      lastReviewed := some now }

/-- Fold a sequence of (correctness, timestamp) reviews through `applySm2`. -/
def runReviews (s : CardSrs) (revs : List (Bool × ℚ)) : CardSrs :=
  revs.foldl (fun st p => applySm2 st ⟨p.1⟩ p.2) s

/-! ### Generic list machinery: JS stable sort, Fisher-Yates, Map grouping -/

/-- Insert `x` into `l` before the first element not strictly below it
(the insertion step of a stable insertion sort). -/
def insertS {α : Type} (lt : α → α → Bool) (x : α) : List α → List α
  | [] => [x]
  | y :: ys => if lt y x then y :: insertS lt x ys else x :: y :: ys

/-- Stable insertion sort; models `Array.prototype.sort` with a comparator
`cmp` via `lt a b = (cmp a b < 0)` (ECMAScript sorts are stable, and for a
consistent comparator the stable sorted output is unique). -/
def insSort {α : Type} (lt : α → α → Bool) : List α → List α
  | [] => []
  | x :: xs => insertS lt x (insSort lt xs)

/-- Swap the entries at positions `i` and `j` (no-op when out of range). -/
def swapIdx {α : Type} (l : List α) (i j : ℕ) : List α :=
  match l.get? i, l.get? j with
  | some a, some b => (l.set i b).set j a
  | _, _ => l

/-- The Fisher-Yates loop of `shuffled`, from position `i` down to 1, with
`r i % (i+1)` standing for `Math.floor(Math.random() * (i + 1))`. -/
def fyAux {α : Type} (r : ℕ → ℕ) : ℕ → List α → List α
  | 0, a => a
  | i + 1, a => fyAux r i (swapIdx a (i + 1) (r (i + 1) % (i + 2)))

/-- `shuffled` from queue.ts, with the random draws supplied by `r`. -/
def shuffled {α : Type} (r : ℕ → ℕ) (l : List α) : List α :=
  fyAux r (l.length - 1) l

/-- Append `v` to the bucket of key `k`, creating the bucket at the end when
absent (models `Map` insertion-order update). -/
def upsertGroup {κ α : Type} [DecidableEq κ] (k : κ) (v : α) :
    List (κ × List α) → List (κ × List α)
  | [] => [(k, [v])]
  | (k1, vs) :: rest =>
    if k1 = k then (k1, vs ++ [v]) :: rest else (k1, vs) :: upsertGroup k v rest

/-- Group a list by a key, buckets in first-occurrence order of their keys
(models building a `Map<K, V[]>` in a loop and taking `[...map.entries()]`). -/
def groupByKey {κ α : Type} [DecidableEq κ] (key : α → κ) (l : List α) :
    List (κ × List α) :=
  l.foldl (fun acc x => upsertGroup (key x) x acc) []

/-- Bucket lookup in an association list (models `map.get(k)` with `[]` for a
missing key). -/
def lookupG {κ α : Type} [DecidableEq κ] (k : κ) : List (κ × List α) → List α
  | [] => []
  | (k1, vs) :: rest => if k1 = k then vs else lookupG k rest

/-- The greedy whole-group accumulation loop of `getVerbLadderQueueForPractice`:
starting from `out`, append each group unless `out` is nonempty and the group
would push the length beyond `limit`; stop as soon as `limit` is reached. -/
def ladderTake {α : Type} (limit : ℤ) : List α → List (List α) → List α
  | out, [] => out
  | out, g :: gs =>
    if !out.isEmpty && decide (limit < (out.length : ℤ) + (g.length : ℤ)) then out
    else
      let out2 := out ++ g
      if limit ≤ (out2.length : ℤ) then out2 else ladderTake limit out2 gs

/-- Minimum of a list of rationals (`Math.min(...l)`; the callers only apply
it to nonempty lists, so the junk value on `[]` is never reached). -/
def listMin : List ℚ → ℚ
  | [] => 0
  | x :: xs => xs.foldl min x

/-! ### Queue construction (src/lib/queue.ts) -/

/-- `isVerbConjugationDeck`: deck-name sniffing for conjugation decks. -/
def isVerbConjugationDeck (state : AppState) (deckId : String) : Bool :=
  jsIncludes (jsToLower (match state.decks deckId with
    | some d => d.name
    | none => "")) "verb conjugation"

/-- `looksLikeVerbBaseKana`: trimmed, nonempty, ends in a u-row kana. -/
def looksLikeVerbBaseKana (s : String) : Bool :=
  let kana := jsTrim s
  if kana = "" then false
  else
    jsEndsWithChar kana 'る' || jsEndsWithChar kana 'う' || jsEndsWithChar kana 'く' ||
    jsEndsWithChar kana 'ぐ' || jsEndsWithChar kana 'す' || jsEndsWithChar kana 'つ' ||
    jsEndsWithChar kana 'ぬ' || jsEndsWithChar kana 'ぶ' || jsEndsWithChar kana 'む'

/-- `isKnownVerbForm`: membership in the closed set of 12 conjugation tags. -/
def isKnownVerbForm (form : Option String) : Bool :=
  match jsToLower (jsTrim (form.getD "")) with
  | "dictionary" => true
  | "polite_present" => true
  | "polite_negative" => true
  | "te" => true
  | "progressive" => true
  | "past" => true
  | "negative" => true
  | "past_negative" => true
  | "want" => true
  | "dont_want" => true
  | "want_past" => true
  | "dont_want_past" => true
  | _ => false

/-- `isGeneratedVerbCard`: the multi-condition guard admitting mechanically
generated verb cards into ladder grouping. -/
def isGeneratedVerbCard (c : Card) : Bool :=
  c.type == CardType.verb &&
  (let baseKana := jsTrim (c.verbBaseKana.getD "")
   !(baseKana == "") && looksLikeVerbBaseKana baseKana && isKnownVerbForm c.verbForm &&
   (testWordBoundary "verb" (jsToLower (c.pos.getD "")) ||
    jsStartsWith (jsToLower (jsTrim c.prompt)) "to "))

/-- A card id survives the ladder loops' skip test iff its card object is
missing or passes the generated-verb-card guard
(`if (c && !isGeneratedVerbCard(c)) continue`). -/
def ladderEligible (state : AppState) (id : String) : Bool :=
  match state.cards id with
  | some c => isGeneratedVerbCard c
  | none => true

/-- `isVocabOnlyDeck`: nonempty deck whose every card exists and is vocab. -/
def isVocabOnlyDeck (state : AppState) (deckId : String) : Bool :=
  match state.decks deckId with
  | none => false
  | some deck =>
    !deck.cardIds.isEmpty &&
    deck.cardIds.all (fun id =>
      match state.cards id with
      | some c => c.type == CardType.vocab
      | none => false)

/-- `vocabCategoryForPos`: part-of-speech string to vocabulary category. -/
def vocabCategoryForPos (posRaw : Option String) : VocabCategory :=
  let pos := jsToLower (posRaw.getD "")
  if testWordBoundary "adverb" pos then .adverb
  else if testWordBoundary "verb" pos then .verb
  else if jsIncludes pos "adjective" then .adjective
  else if jsIncludes pos "noun" || jsIncludes pos "pronoun" then .noun
  else if jsIncludes pos "conjunction" || jsIncludes pos "particle" ||
      jsIncludes pos "determiner" || jsIncludes pos "interjection" ||
      jsIncludes pos "auxiliary" || jsIncludes pos "suffix" ||
      jsIncludes pos "expression" then .connector
  else .other

/-- `defaultVocabPracticeCategories`: all six categories enabled. -/
def defaultVocabPracticeCategories : CategoryFlags :=
  ⟨true, true, true, true, true, true⟩

/-- `Object.values(categories).some(Boolean)`. -/
def anyCategoryEnabled (f : CategoryFlags) : Bool :=
  f.noun || f.verb || f.adjective || f.adverb || f.connector || f.other

/-- `getVocabPracticeFilteredIds`: apply the per-deck category filter. -/
def getVocabPracticeFilteredIds (state : AppState) (deckId : String) (ids : List String) :
    List String :=
  match state.vocabPracticeFilters deckId with
  | none => ids
  | some filter =>
    let categories := filter.categories.getD defaultVocabPracticeCategories
    if !anyCategoryEnabled categories then []
    else
      ids.filter (fun id =>
        match state.cards id with
        | none => true
        | some c =>
          if c.type != CardType.vocab then true
          else (categories.get (vocabCategoryForPos c.pos)))

/-- `verbBaseKey`: the `(kanji, kana)` grouping key of a card's ladder, falling
back to the card id itself. -/
def verbBaseKey (state : AppState) (cardId : String) : String :=
  let c := state.cards cardId
  let baseKana := jsTrim (match c with
    | some c => jsOr (c.verbBaseKana.getD "") c.answer
    | none => "")
  let baseKanji := jsTrim (match c with
    | some c => c.verbBaseKanji.getD ""
    | none => "")
  let raw := jsTrim (baseKanji ++ "||" ++ baseKana)
  if raw = "" ∨ raw = "||" then cardId else raw

/-- `verbFormRank`: the fixed conjugation-form rank table. -/
def verbFormRank (form : Option String) : ℕ :=
  match jsToLower (form.getD "") with
  | "dictionary" => 0
  | "polite_present" => 1
  | "polite_negative" => 2
  | "te" => 3
  | "progressive" => 4
  | "past" => 5
  | "negative" => 6
  | "past_negative" => 7
  | "want" => 8
  | "dont_want" => 9
  | "want_past" => 10
  | "dont_want_past" => 11
  | _ => 100

/-- `state.cards[a]?.verbForm`. -/
def cardVerbForm (state : AppState) (id : String) : Option String :=
  (state.cards id).bind Card.verbForm

/-- `state.cards[a]?.answer ?? ''`. -/
def cardAnswer (state : AppState) (id : String) : String :=
  match state.cards id with
  | some c => c.answer
  | none => ""

/-- The ladder comparator of `orderVerbCardsForLadder`: form rank, then answer
string, then card id. -/
def ladderLt (state : AppState) (a b : String) : Bool :=
  let ra := verbFormRank (cardVerbForm state a)
  let rb := verbFormRank (cardVerbForm state b)
  if ra ≠ rb then decide (ra < rb)
  else
    let aa := cardAnswer state a
    let ab := cardAnswer state b
    if strLt aa ab then true
    else if strLt ab aa then false
    else strLt a b

/-- `orderVerbCardsForLadder`: sort a ladder's ids by the fixed rank table. -/
def orderVerbCardsForLadder (state : AppState) (ids : List String) : List String :=
  insSort (ladderLt state) ids

/-- `(state.srs[id] ?? defaultSrs(id, now)).due`. -/
def dueOf (state : AppState) (id : String) (now : ℚ) : ℚ :=
  match state.srs id with
  | some s => s.due
  | none => now

/-- `state.stats?.[id]?.reviews ?? 0`. -/
def reviewsOf (state : AppState) (id : String) : ℕ :=
  match state.stats id with
  | some st => st.reviews
  | none => 0

/-- The due, ladder-eligible card ids of a deck, in deck order. -/
def dueLadderIds (state : AppState) (deck : Deck) (now : ℚ) : List String :=
  deck.cardIds.filter (fun id => ladderEligible state id && decide (dueOf state id now ≤ now))

/-- A review-mode ladder group: base key, ordered ids, minimum due time. -/
structure RGroup where
  base : String
  ids : List String
  minDue : ℚ

/-- The ordered groups built by `getVerbLadderQueueForReview`. -/
def reviewGroups (state : AppState) (deck : Deck) (now : ℚ) : List RGroup :=
  insSort (fun a b => decide (a.minDue < b.minDue))
    ((groupByKey (verbBaseKey state) (dueLadderIds state deck now)).map
      (fun p =>
        ⟨p.1, orderVerbCardsForLadder state p.2,
          listMin (p.2.map (fun id => dueOf state id now))⟩))

/-- `getVerbLadderQueueForReview`: due cards grouped into ladders, groups by
ascending minimum due. -/
def getVerbLadderQueueForReview (state : AppState) (deckId : String) (now : ℚ) : List String :=
  match state.decks deckId with
  | none => []
  | some deck =>
    if (dueLadderIds state deck now).isEmpty then []
    else ((reviewGroups state deck now).map RGroup.ids).flatten

/-- The ladder-eligible card ids of a deck regardless of due-ness. -/
def eligLadderIds (state : AppState) (deck : Deck) : List String :=
  deck.cardIds.filter (ladderEligible state)

/-- A practice-mode ladder group: base key, ordered ids, average review count,
minimum due time. -/
structure PGroup where
  base : String
  ids : List String
  avgReviews : ℚ
  minDue : ℚ

/-- The ordered groups built by `getVerbLadderQueueForPractice`. -/
def practiceGroups (state : AppState) (deck : Deck) (now : ℚ) : List PGroup :=
  insSort (fun a b =>
      decide (a.avgReviews < b.avgReviews ∨
        (a.avgReviews = b.avgReviews ∧ a.minDue < b.minDue)))
    ((groupByKey (verbBaseKey state) (eligLadderIds state deck)).map
      (fun p =>
        let ordered := orderVerbCardsForLadder state p.2
        let avg : ℚ :=
          if ordered.isEmpty then 0
          else ((ordered.map (fun id => (reviewsOf state id : ℚ))).sum) / (ordered.length : ℚ)
        ⟨p.1, ordered, avg, listMin (ordered.map (fun id => dueOf state id now))⟩))

/-- `getVerbLadderQueueForPractice`: whole ladders appended greedily up to
`limit`, least-practiced groups first. -/
def getVerbLadderQueueForPractice (state : AppState) (deckId : String) (now : ℚ)
    (limit : ℤ) : List String :=
  match state.decks deckId with
  | none => []
  | some deck =>
    if limit ≤ 0 then []
    else
      let groups := practiceGroups state deck now
      let out := ladderTake limit [] (groups.map PGroup.ids)
      if out.isEmpty then
        match groups with
        | [] => []
        | g :: _ => g.ids
      else out

/-- `getDueCardIdsForDeck`: ladder review for conjugation decks; otherwise the
due cards sorted by due time then shuffled. -/
def getDueCardIdsForDeck (state : AppState) (deckId : String) (now : ℚ)
    (r : ℕ → ℕ) : List String :=
  match state.decks deckId with
  | none => []
  | some deck =>
    if isVerbConjugationDeck state deckId then
      getVerbLadderQueueForReview state deckId now
    else
      let due := deck.cardIds.filterMap (fun id =>
        if dueOf state id now ≤ now then some (id, dueOf state id now) else none)
      let sorted := insSort (fun a b => decide (a.2 < b.2)) due
      shuffled r (sorted.map Prod.fst)

/-- The merged `due ++ othersShuffled` list computed by
`getPracticeCardIdsForDeck` on its non-conjugation path, before truncation.
`rs 0` drives the due-list shuffle, `rs (i+1)` the shuffle of the i-th
review-count bucket. -/
def practiceMergedForDeck (state : AppState) (deckId : String) (now : ℚ)
    (rs : ℕ → ℕ → ℕ) : List String :=
  match state.decks deckId with
  | none => []
  | some deck =>
    let baseIds :=
      if isVocabOnlyDeck state deckId then
        getVocabPracticeFilteredIds state deckId deck.cardIds
      else deck.cardIds
    let due := (getDueCardIdsForDeck state deckId now (rs 0)).filter
      (fun id => baseIds.contains id)
    let others := baseIds.filter (fun id => !(due.contains id))
    let grouped := groupByKey (reviewsOf state) others
    let reviewCounts := insSort (fun a b => decide (a < b)) (grouped.map Prod.fst)
    let othersShuffled := (reviewCounts.enum.map (fun p =>
      shuffled (rs (p.1 + 1))
        (insSort (fun a b => decide (dueOf state a now < dueOf state b now))
          (lookupG p.2 grouped)))).flatten
    due ++ othersShuffled

/-- `getPracticeCardIdsForDeck`: ladder practice for conjugation decks;
otherwise the merged list truncated to `limit` unless `limit <= 0` or
`limit >=` its length. -/
def getPracticeCardIdsForDeck (state : AppState) (deckId : String) (now : ℚ)
    (limit : ℤ) (rs : ℕ → ℕ → ℕ) : List String :=
  match state.decks deckId with
  | none => []
  | some _ =>
    if isVerbConjugationDeck state deckId then
      getVerbLadderQueueForPractice state deckId now limit
    else
      let merged := practiceMergedForDeck state deckId now rs
      if limit ≤ 0 ∨ (merged.length : ℤ) ≤ limit then merged
      else merged.take limit.toNat

/-! ### Concrete example states -/

/-- A conjugation-named deck holding a single vocab card. -/
def exConjVocabState : AppState :=
  { decks := fun d => if d = "d" then some ⟨"d", "Verb Conjugation", ["c1"]⟩ else none
    cards := fun c =>
      if c = "c1" then
        some ⟨"c1", "d", CardType.vocab, some "noun", "one", "いち", none, none, none, none⟩
      else none
    srs := fun _ => none
    stats := fun _ => none
    vocabPracticeFilters := fun _ => none }

/-- A conjugation-named deck whose single card id has no card object. -/
def exConjDanglingState : AppState :=
  { decks := fun d => if d = "d" then some ⟨"d", "Verb Conjugation", ["c1"]⟩ else none
    cards := fun _ => none
    srs := fun _ => none
    stats := fun _ => none
    vocabPracticeFilters := fun _ => none }

/-- A conjugation deck with one three-form ladder of a single verb. -/
def exLadderState : AppState :=
  { decks := fun d =>
      if d = "d" then some ⟨"d", "Verb Conjugation", ["c1", "c2", "c3"]⟩ else none
    cards := fun c =>
      if c = "c1" then
        some ⟨"c1", "d", CardType.verb, some "verb", "to eat", "たべる",
          some "たべる", none, some "dictionary", none⟩
      else if c = "c2" then
        some ⟨"c2", "d", CardType.verb, some "verb", "to eat (polite)", "たべます",
          some "たべる", none, some "polite_present", none⟩
      else if c = "c3" then
        some ⟨"c3", "d", CardType.verb, some "verb", "to eat (te)", "たべて",
          some "たべる", none, some "te", none⟩
      else none
    srs := fun _ => none
    stats := fun _ => none
    vocabPracticeFilters := fun _ => none }

/-- A category-flag record with every category disabled. -/
def allFalseCategories : CategoryFlags :=
  ⟨false, false, false, false, false, false⟩

/-- A vocab-only deck whose practice filter has zero categories enabled. -/
def exVocabFilterState : AppState :=
  { decks := fun d => if d = "v" then some ⟨"v", "Food", ["w1"]⟩ else none
    cards := fun c =>
      if c = "w1" then
        some ⟨"w1", "v", CardType.vocab, some "noun", "rice", "ごはん", none, none, none, none⟩
      else none
    srs := fun _ => none
    stats := fun _ => none
    vocabPracticeFilters := fun d =>
      if d = "v" then some ⟨some allFalseCategories⟩ else none }

/-- A plain (non-conjugation) deck with two dangling card ids. -/
def exFlatState : AppState :=
  { decks := fun d => if d = "f" then some ⟨"f", "Basics", ["a", "b"]⟩ else none
    cards := fun _ => none
    srs := fun _ => none
    stats := fun _ => none
    vocabPracticeFilters := fun _ => none }

/-! ### Scheduler claims -/

/-- C1: from the default recall state, a correct review at time T yields
intervalDays = 1, repetitions = 1, due = T + 86400000; a second correct review
yields intervalDays = 6 and repetitions = 2; an incorrect review after that
yields repetitions = 0, intervalDays = 1 and lapses = 1. -/
theorem C1_applySm2_scenarios (id : String) (T T2 T3 : ℚ) :
    (applySm2 (defaultSrs id T) ⟨true⟩ T).intervalDays = 1 ∧
    (applySm2 (defaultSrs id T) ⟨true⟩ T).repetitions = 1 ∧
    (applySm2 (defaultSrs id T) ⟨true⟩ T).due = T + 86400000 ∧
    (applySm2 (applySm2 (defaultSrs id T) ⟨true⟩ T) ⟨true⟩ T2).intervalDays = 6 ∧
    (applySm2 (applySm2 (defaultSrs id T) ⟨true⟩ T) ⟨true⟩ T2).repetitions = 2 ∧
    (applySm2 (applySm2 (applySm2 (defaultSrs id T) ⟨true⟩ T) ⟨true⟩ T2) ⟨false⟩ T3).repetitions
      = 0 ∧
    (applySm2 (applySm2 (applySm2 (defaultSrs id T) ⟨true⟩ T) ⟨true⟩ T2) ⟨false⟩ T3).intervalDays
      = 1 ∧
    (applySm2 (applySm2 (applySm2 (defaultSrs id T) ⟨true⟩ T) ⟨true⟩ T2) ⟨false⟩ T3).lapses
      = 1 := by
  norm_num [applySm2, defaultSrs, clamp]

/-- C2 counterexample: on a correct answer the ease-factor update adds an
increment of exactly zero, not a strictly positive one — at the default state
the resulting ease factor is not strictly greater than the previous one. -/
theorem C2_counterexample :
    ¬ (defaultSrs "c" 0).easeFactor < (applySm2 (defaultSrs "c" 0) ⟨true⟩ 0).easeFactor := by
  norm_num [applySm2, defaultSrs, clamp]

/-- C2 (amended): at quality 4 the increment
`0.1 - (5-quality)*(0.08 + (5-quality)*0.02)` is exactly zero, so on a correct
answer `applySm2` leaves the ease factor unchanged up to the `[1.3, 3.0]`
clamp; the increment is non-negative, never strictly positive. -/
theorem C2_ease_increment_zero (prev : CardSrs) (now : ℚ) :
    (0.1 : ℚ) - (5 - 4) * (0.08 + (5 - 4) * 0.02) = 0 ∧
    (applySm2 prev ⟨true⟩ now).easeFactor = clamp prev.easeFactor 1.3 3.0 := by
  constructor
  · norm_num
  · norm_num [applySm2]

/-- Step facts for C8: for a previous ease factor inside `[1.3, 3]`, one
`applySm2` step (correct or not) returns an ease factor that is at least the
previous one and still inside `[1.3, 3]`. -/
theorem applySm2_ease_step (prev : CardSrs) (res : ReviewResult) (now : ℚ)
    (h1 : 1.3 ≤ prev.easeFactor) (h2 : prev.easeFactor ≤ 3) :
    prev.easeFactor ≤ (applySm2 prev res now).easeFactor ∧
    1.3 ≤ (applySm2 prev res now).easeFactor ∧ (applySm2 prev res now).easeFactor ≤ 3 := by
  rcases res with ⟨correct⟩
  cases correct
  · have heq : (applySm2 prev ⟨false⟩ now).easeFactor = prev.easeFactor := by
      norm_num [applySm2]
    rw [heq]
    exact ⟨le_refl _, h1, h2⟩
  · have heq : (applySm2 prev ⟨true⟩ now).easeFactor = clamp prev.easeFactor 1.3 3.0 := by
      norm_num [applySm2]
    have hcl : clamp prev.easeFactor 1.3 3.0 = prev.easeFactor := by
      unfold clamp
      rw [min_eq_right (le_trans h2 (by norm_num)), max_eq_right h1]
    rw [heq, hcl]
    exact ⟨le_refl _, h1, h2⟩

/-- Helper for C8: running any batch of reviews from a state whose ease factor
lies in `[1.3, 3]` never decreases the ease factor and keeps it in bounds. -/
theorem runReviews_ease_invariant (revs : List (Bool × ℚ)) :
    ∀ s : CardSrs, 1.3 ≤ s.easeFactor → s.easeFactor ≤ 3 →
      s.easeFactor ≤ (runReviews s revs).easeFactor ∧
      1.3 ≤ (runReviews s revs).easeFactor ∧ (runReviews s revs).easeFactor ≤ 3 := by
  induction revs with
  | nil => intro s h1 h2; exact ⟨le_refl _, h1, h2⟩
  | cons p rest ih =>
    intro s h1 h2
    have hstep := applySm2_ease_step s ⟨p.1⟩ p.2 h1 h2
    have hrest := ih (applySm2 s ⟨p.1⟩ p.2) hstep.2.1 hstep.2.2
    refine ⟨le_trans hstep.1 ?_, hrest.2.1, hrest.2.2⟩
    · simpa [runReviews] using hrest.1

/-- C8: for a previous state with ease factor in `[1.3, 3.0]`, `applySm2`
returns an ease factor that is at least the previous one and stays in
`[1.3, 3.0]`; over any sequence of reviews starting from the default state the
ease factor is non-decreasing and stays in bounds. -/
theorem C8_ease_monotone :
    (∀ (prev : CardSrs) (res : ReviewResult) (now : ℚ),
      1.3 ≤ prev.easeFactor → prev.easeFactor ≤ 3 →
      prev.easeFactor ≤ (applySm2 prev res now).easeFactor ∧
      1.3 ≤ (applySm2 prev res now).easeFactor ∧ (applySm2 prev res now).easeFactor ≤ 3) ∧
    (∀ (id : String) (t0 : ℚ) (revs more : List (Bool × ℚ)),
      (runReviews (defaultSrs id t0) revs).easeFactor ≤
        (runReviews (defaultSrs id t0) (revs ++ more)).easeFactor ∧
      1.3 ≤ (runReviews (defaultSrs id t0) revs).easeFactor ∧
      (runReviews (defaultSrs id t0) revs).easeFactor ≤ 3) := by
  constructor
  · exact applySm2_ease_step
  · intro id t0 revs more
    have hbase : 1.3 ≤ (defaultSrs id t0).easeFactor ∧ (defaultSrs id t0).easeFactor ≤ 3 := by
      norm_num [defaultSrs]
    have h1 := runReviews_ease_invariant revs (defaultSrs id t0) hbase.1 hbase.2
    have h2 := runReviews_ease_invariant more (runReviews (defaultSrs id t0) revs) h1.2.1 h1.2.2
    have happ : runReviews (defaultSrs id t0) (revs ++ more)
        = runReviews (runReviews (defaultSrs id t0) revs) more := by
      simp [runReviews, List.foldl_append]
    exact ⟨happ ▸ h2.1, h1.2.1, h1.2.2⟩

/-- C8 witness at a concrete state and review. -/
theorem C8_witness :
    (defaultSrs "w8" 0).easeFactor ≤ (applySm2 (defaultSrs "w8" 0) ⟨true⟩ 0).easeFactor :=
  (C8_ease_monotone.1 (defaultSrs "w8" 0) ⟨true⟩ 0 (by norm_num [defaultSrs])
    (by norm_num [defaultSrs])).1


/-! ### Lemmas about the stable insertion sort -/

theorem insertS_perm {α : Type} (lt : α → α → Bool) (x : α) (l : List α) :
    List.Perm (insertS lt x l) (x :: l) := by
  induction l with
  | nil => exact .refl _
  | cons y ys ih =>
    simp only [insertS]
    split
    · exact (ih.cons y).trans (List.Perm.swap x y ys)
    · exact .refl _

theorem insSort_perm {α : Type} (lt : α → α → Bool) (l : List α) :
    List.Perm (insSort lt l) l := by
  induction l with
  | nil => exact .refl _
  | cons x xs ih => exact (insertS_perm lt x (insSort lt xs)).trans (ih.cons x)

theorem insertS_pairwise {α : Type} (lt : α → α → Bool)
    (hasym : ∀ a b, lt a b = true → lt b a = false)
    (htrans : ∀ a b c, lt b a = false → lt c b = false → lt c a = false)
    (x : α) (l : List α) (hl : List.Pairwise (fun a b => lt b a = false) l) :
    List.Pairwise (fun a b => lt b a = false) (insertS lt x l) := by
  induction l with
  | nil => simp [insertS]
  | cons y ys ih =>
    rw [List.pairwise_cons] at hl
    obtain ⟨hy, hys⟩ := hl
    simp only [insertS]
    split
    · rename_i hlt
      refine List.Pairwise.cons ?_ (ih hys)
      intro z hz
      have hz2 : z ∈ x :: ys := (insertS_perm lt x ys).mem_iff.mp hz
      rcases List.mem_cons.mp hz2 with h | h
      · subst h; exact hasym y z hlt
      · exact hy z h
    · rename_i hnlt
      have hyx : lt y x = false := by
        cases h : lt y x
        · rfl
        · exact absurd h hnlt
      refine List.Pairwise.cons ?_ (List.Pairwise.cons hy hys)
      intro z hz
      rcases List.mem_cons.mp hz with h | h
      · subst h; exact hyx
      · exact htrans x y z hyx (hy z h)

theorem insSort_pairwise {α : Type} (lt : α → α → Bool)
    (hasym : ∀ a b, lt a b = true → lt b a = false)
    (htrans : ∀ a b c, lt b a = false → lt c b = false → lt c a = false)
    (l : List α) :
    List.Pairwise (fun a b => lt b a = false) (insSort lt l) := by
  induction l with
  | nil => simp [insSort]
  | cons x xs ih => exact insertS_pairwise lt hasym htrans x _ ih

/-! ### Lemmas about the Fisher-Yates shuffle -/

theorem cons_set_perm {α : Type} (a b : α) :
    ∀ (t : List α) (k : ℕ), t.get? k = some b →
      List.Perm (b :: t.set k a) (a :: t) := by
  intro t
  induction t with
  | nil => intro k h; simp at h
  | cons c t' ih =>
    intro k h
    cases k with
    | zero =>
      simp only [List.get?] at h
      rw [show c = b by injection h]
      exact List.Perm.swap a b t'
    | succ k' =>
      simp only [List.get?] at h
      have h1 : List.Perm (b :: c :: t'.set k' a) (c :: b :: t'.set k' a) :=
        List.Perm.swap c b _
      have h2 : List.Perm (c :: b :: t'.set k' a) (c :: a :: t') := (ih k' h).cons c
      have h3 : List.Perm (c :: a :: t') (a :: c :: t') := List.Perm.swap a c t'
      exact (h1.trans h2).trans h3

theorem set_set_perm {α : Type} :
    ∀ (l : List α) (i j : ℕ) (a b : α),
      l.get? i = some a → l.get? j = some b →
      List.Perm ((l.set i b).set j a) l := by
  intro l
  induction l with
  | nil => intro i j a b hi _; simp at hi
  | cons x t ih =>
    intro i j a b hi hj
    cases i with
    | zero =>
      simp only [List.get?] at hi
      rw [show x = a by injection hi]
      cases j with
      | zero =>
        simp only [List.get?] at hj
        exact .refl _
      | succ j' =>
        simp only [List.get?] at hj
        exact cons_set_perm a b t j' hj
    | succ i' =>
      simp only [List.get?] at hi
      cases j with
      | zero =>
        simp only [List.get?] at hj
        rw [show x = b by injection hj]
        exact cons_set_perm b a t i' hi
      | succ j' =>
        simp only [List.get?] at hj
        exact (ih i' j' a b hi hj).cons x

theorem swapIdx_perm {α : Type} (l : List α) (i j : ℕ) :
    List.Perm (swapIdx l i j) l := by
  unfold swapIdx
  cases hi : l.get? i with
  | none => exact .refl _
  | some a =>
    cases hj : l.get? j with
    | none => exact .refl _
    | some b => exact set_set_perm l i j a b hi hj

theorem fyAux_perm {α : Type} (r : ℕ → ℕ) :
    ∀ (n : ℕ) (l : List α), List.Perm (fyAux r n l) l := by
  intro n
  induction n with
  | zero => intro l; exact .refl _
  | succ i ih =>
    intro l
    exact (ih _).trans (swapIdx_perm l (i + 1) (r (i + 1) % (i + 2)))

theorem shuffled_perm {α : Type} (r : ℕ → ℕ) (l : List α) :
    List.Perm (shuffled r l) l :=
  fyAux_perm r (l.length - 1) l

/-! ### Lemmas about Map-style grouping -/

theorem lookupG_upsert {κ α : Type} [DecidableEq κ] (k k1 : κ) (v : α)
    (acc : List (κ × List α)) :
    lookupG k (upsertGroup k1 v acc)
      = lookupG k acc ++ (if k1 = k then [v] else []) := by
  induction acc with
  | nil =>
    by_cases h : k1 = k
    · simp [upsertGroup, lookupG, h]
    · simp [upsertGroup, lookupG, h]
  | cons p rest ih =>
    obtain ⟨k2, vs⟩ := p
    simp only [upsertGroup]
    by_cases h12 : k2 = k1
    · rw [if_pos h12]
      by_cases h2k : k2 = k
      · have hk1 : k1 = k := h12.symm.trans h2k
        simp [lookupG, h2k, hk1]
      · have hk1 : ¬ k1 = k := fun h => h2k (h12.trans h)
        simp [lookupG, h2k, hk1]
    · rw [if_neg h12]
      by_cases h2k : k2 = k
      · have hk1 : ¬ k1 = k := fun h => h12 (h2k.trans h.symm)
        simp [lookupG, h2k, hk1]
      · simp [lookupG, h2k, ih]

theorem lookupG_foldl_upsert {κ α : Type} [DecidableEq κ] (key : α → κ) (k : κ) :
    ∀ (l : List α) (acc : List (κ × List α)),
      lookupG k (l.foldl (fun acc x => upsertGroup (key x) x acc) acc)
        = lookupG k acc ++ l.filter (fun x => decide (key x = k)) := by
  intro l
  induction l with
  | nil => intro acc; simp
  | cons x xs ih =>
    intro acc
    by_cases h : key x = k
    · simp [List.foldl_cons, ih, lookupG_upsert, h]
    · simp [List.foldl_cons, ih, lookupG_upsert, h]

theorem lookupG_groupByKey {κ α : Type} [DecidableEq κ] (key : α → κ) (k : κ)
    (l : List α) :
    lookupG k (groupByKey key l) = l.filter (fun x => decide (key x = k)) := by
  have h := lookupG_foldl_upsert key k l []
  simpa [groupByKey, lookupG] using h

theorem mem_keys_upsert {κ α : Type} [DecidableEq κ] (k k1 : κ) (v : α)
    (acc : List (κ × List α)) :
    k1 ∈ (upsertGroup k v acc).map Prod.fst ↔ k1 = k ∨ k1 ∈ acc.map Prod.fst := by
  induction acc with
  | nil => simp [upsertGroup]
  | cons p rest ih =>
    obtain ⟨k2, vs⟩ := p
    simp only [upsertGroup]
    by_cases h2 : k2 = k
    · rw [if_pos h2]
      subst h2
      simp only [List.map_cons, List.mem_cons]
      tauto
    · rw [if_neg h2]
      simp only [List.map_cons, List.mem_cons, ih]
      tauto

theorem nodup_keys_upsert {κ α : Type} [DecidableEq κ] (k : κ) (v : α)
    (acc : List (κ × List α)) (h : (acc.map Prod.fst).Nodup) :
    ((upsertGroup k v acc).map Prod.fst).Nodup := by
  induction acc with
  | nil => simp [upsertGroup]
  | cons p rest ih =>
    obtain ⟨k2, vs⟩ := p
    simp only [List.map_cons, List.nodup_cons] at h
    simp only [upsertGroup]
    by_cases h2 : k2 = k
    · rw [if_pos h2]
      simp only [List.map_cons, List.nodup_cons]
      exact ⟨h.1, h.2⟩
    · rw [if_neg h2]
      simp only [List.map_cons, List.nodup_cons]
      refine ⟨?_, ih h.2⟩
      rw [mem_keys_upsert]
      rintro (rfl | hm)
      · exact h2 rfl
      · exact h.1 hm

theorem nodup_keys_groupByKey {κ α : Type} [DecidableEq κ] (key : α → κ) (l : List α) :
    ((groupByKey key l).map Prod.fst).Nodup := by
  suffices h : ∀ (l : List α) (acc : List (κ × List α)), (acc.map Prod.fst).Nodup →
      (((l.foldl (fun acc x => upsertGroup (key x) x acc) acc)).map Prod.fst).Nodup by
    exact h l [] (by simp)
  intro l
  induction l with
  | nil => intro acc hacc; simpa using hacc
  | cons x xs ih =>
    intro acc hacc
    exact ih _ (nodup_keys_upsert (key x) x acc hacc)

theorem mem_lookupG {κ α : Type} [DecidableEq κ] (k : κ) (vs : List α) :
    ∀ (assoc : List (κ × List α)), (assoc.map Prod.fst).Nodup →
      (k, vs) ∈ assoc → lookupG k assoc = vs := by
  intro assoc
  induction assoc with
  | nil => intro _ h; simp at h
  | cons p rest ih =>
    obtain ⟨k2, vs2⟩ := p
    intro hnd hm
    simp only [List.map_cons, List.nodup_cons] at hnd
    rcases List.mem_cons.mp hm with h | h
    · obtain ⟨rfl, rfl⟩ := Prod.mk.inj h.symm
      simp [lookupG]
    · have hk2 : ¬ k2 = k := by
        intro he
        subst he
        exact hnd.1 (List.mem_map.mpr ⟨(k2, vs), h, rfl⟩)
      simp only [lookupG, if_neg hk2]
      exact ih hnd.2 h

theorem bucket_eq_filter {κ α : Type} [DecidableEq κ] (key : α → κ) (l : List α)
    (p : κ × List α) (hp : p ∈ groupByKey key l) :
    p.2 = l.filter (fun x => decide (key x = p.1)) := by
  obtain ⟨k, vs⟩ := p
  have h1 : lookupG k (groupByKey key l) = vs :=
    mem_lookupG k vs _ (nodup_keys_groupByKey key l) hp
  rw [← h1, lookupG_groupByKey]

theorem mem_bucket_key {κ α : Type} [DecidableEq κ] (key : α → κ) (l : List α)
    (p : κ × List α) (hp : p ∈ groupByKey key l) (x : α) (hx : x ∈ p.2) :
    key x = p.1 := by
  rw [bucket_eq_filter key l p hp] at hx
  simpa using (List.mem_filter.mp hx).2

theorem upsert_vals_ne_nil {κ α : Type} [DecidableEq κ] (k : κ) (v : α)
    (acc : List (κ × List α)) (hacc : ∀ q ∈ acc, q.2 ≠ []) :
    ∀ q ∈ upsertGroup k v acc, q.2 ≠ [] := by
  induction acc with
  | nil =>
    intro q hq
    simp only [upsertGroup, List.mem_singleton] at hq
    subst hq
    simp
  | cons p rest ih =>
    obtain ⟨k2, vs⟩ := p
    intro q hq
    simp only [upsertGroup] at hq
    by_cases h2 : k2 = k
    · rw [if_pos h2] at hq
      rcases List.mem_cons.mp hq with h | h
      · subst h; simp
      · exact hacc q (List.mem_cons_of_mem _ h)
    · rw [if_neg h2] at hq
      rcases List.mem_cons.mp hq with h | h
      · subst h; exact hacc (k2, vs) (List.mem_cons_self _ _)
      · exact ih (fun q3 hq3 => hacc q3 (List.mem_cons_of_mem _ hq3)) q h

theorem bucket_ne_nil {κ α : Type} [DecidableEq κ] (key : α → κ) (l : List α)
    (p : κ × List α) (hp : p ∈ groupByKey key l) : p.2 ≠ [] := by
  suffices h : ∀ (l : List α) (acc : List (κ × List α)), (∀ q ∈ acc, q.2 ≠ []) →
      ∀ q ∈ l.foldl (fun acc x => upsertGroup (key x) x acc) acc, q.2 ≠ [] by
    exact h l [] (by simp) p hp
  intro l
  induction l with
  | nil => intro acc hacc; simpa using hacc
  | cons x xs ih =>
    intro acc hacc
    exact ih _ (upsert_vals_ne_nil (key x) x acc hacc)

theorem joinVals_upsert_perm {κ α : Type} [DecidableEq κ] (k : κ) (v : α)
    (acc : List (κ × List α)) :
    List.Perm ((upsertGroup k v acc).map Prod.snd).flatten
      ((acc.map Prod.snd).flatten ++ [v]) := by
  induction acc with
  | nil => exact .refl _
  | cons p rest ih =>
    obtain ⟨k2, vs2⟩ := p
    simp only [upsertGroup]
    by_cases h2 : k2 = k
    · rw [if_pos h2]
      simp only [List.map_cons, List.flatten_cons, List.append_assoc]
      exact List.Perm.append_left vs2 List.perm_append_comm
    · rw [if_neg h2]
      simp only [List.map_cons, List.flatten_cons, List.append_assoc]
      exact List.Perm.append_left vs2 ih

theorem groupByKey_flatten_perm {κ α : Type} [DecidableEq κ] (key : α → κ) (l : List α) :
    List.Perm ((groupByKey key l).map Prod.snd).flatten l := by
  suffices h : ∀ (l : List α) (acc : List (κ × List α)),
      List.Perm (((l.foldl (fun acc x => upsertGroup (key x) x acc) acc)).map Prod.snd).flatten
        ((acc.map Prod.snd).flatten ++ l) by
    simpa [groupByKey] using h l []
  intro l
  induction l with
  | nil => intro acc; simp
  | cons x xs ih =>
    intro acc
    have h1 := ih (upsertGroup (key x) x acc)
    have h2 : List.Perm (((upsertGroup (key x) x acc).map Prod.snd).flatten ++ xs)
        ((((acc.map Prod.snd).flatten) ++ [x]) ++ xs) :=
      List.Perm.append (joinVals_upsert_perm (key x) x acc) (.refl xs)
    have h3 := h1.trans h2
    simpa using h3

/-! ### The greedy whole-ladder loop -/

theorem ladderTake_cons_eq {α : Type} (limit : ℤ) (out g : List α) (gs1 : List (List α)) :
    ladderTake limit out (g :: gs1)
      = if (!out.isEmpty && decide (limit < (out.length : ℤ) + (g.length : ℤ))) then out
        else if limit ≤ (((out ++ g).length : ℤ)) then out ++ g
        else ladderTake limit (out ++ g) gs1 := rfl

theorem ladderTake_spec {α : Type} (limit : ℤ) :
    ∀ (gs : List (List α)) (out : List α),
      ∃ n, n ≤ gs.length ∧
        ladderTake limit out gs = out ++ (gs.take n).flatten ∧
        (out = [] → gs ≠ [] → 1 ≤ n) ∧
        (∀ g1, gs.get? n = some g1 → g1 ≠ [] →
          limit < ((ladderTake limit out gs).length : ℤ) + (g1.length : ℤ)) := by
  intro gs
  induction gs with
  | nil =>
    intro out
    refine ⟨0, by simp, by simp [ladderTake], by simp, ?_⟩
    intro g1 hg1
    simp at hg1
  | cons g gs1 ih =>
    intro out
    cases hstop : (!out.isEmpty && decide (limit < (out.length : ℤ) + (g.length : ℤ))) with
    | true =>
      have hres : ladderTake limit out (g :: gs1) = out := by
        rw [ladderTake_cons_eq, hstop, if_pos rfl]
      refine ⟨0, by simp, by simpa using hres, ?_, ?_⟩
      · intro hout _
        rw [hout] at hstop
        simp at hstop
      · intro g1 hg1 _
        have hg : g1 = g := by
          simp only [List.get?] at hg1
          injection hg1 with h
          exact h.symm
        subst hg
        have hlt : limit < (out.length : ℤ) + (g1.length : ℤ) := by
          have h2 := (Bool.and_eq_true _ _).mp hstop
          exact of_decide_eq_true h2.2
        rw [hres]
        exact hlt
    | false =>
      have hstopfalse :
          (if (!out.isEmpty && decide (limit < (out.length : ℤ) + (g.length : ℤ))) then out
           else if limit ≤ (((out ++ g).length : ℤ)) then out ++ g
           else ladderTake limit (out ++ g) gs1)
          = if limit ≤ (((out ++ g).length : ℤ)) then out ++ g
            else ladderTake limit (out ++ g) gs1 := by
        rw [hstop]
        simp
      by_cases hreach : limit ≤ ((out ++ g).length : ℤ)
      · have hres : ladderTake limit out (g :: gs1) = out ++ g := by
          rw [ladderTake_cons_eq, hstopfalse, if_pos hreach]
        refine ⟨1, by simp, ?_, ?_, ?_⟩
        · rw [hres]
          simp
        · intro _ _
          exact le_refl 1
        · intro g1 hg1 hne
          rw [hres]
          have h1 : 1 ≤ (g1.length : ℤ) := by
            exact_mod_cast Nat.one_le_iff_ne_zero.mpr
              (fun h => hne (List.eq_nil_of_length_eq_zero h))
          linarith
      · have hres : ladderTake limit out (g :: gs1) = ladderTake limit (out ++ g) gs1 := by
          rw [ladderTake_cons_eq, hstopfalse, if_neg hreach]
        obtain ⟨n1, hn1le, heq, _hfirst, hstop2⟩ := ih (out ++ g)
        refine ⟨n1 + 1, by simpa using hn1le, ?_, ?_, ?_⟩
        · rw [hres, heq]
          simp [List.take_succ_cons, List.flatten_cons, List.append_assoc]
        · intro _ _
          omega
        · intro g1 hg1 hne
          have hg1s : gs1.get? n1 = some g1 := by
            simpa [List.get?] using hg1
          have hlast := hstop2 g1 hg1s hne
          rw [hres]
          exact hlast

/-! ### Contiguity of flattened keyed blocks -/

theorem mem_flatten_blocks_key (vb : String → String)
    (rest : List (String × List String))
    (hkeys : ∀ p ∈ rest, ∀ x ∈ p.2, vb x = p.1)
    (z : String) (hz : z ∈ (rest.map Prod.snd).flatten) :
    vb z ∈ rest.map Prod.fst := by
  rcases List.mem_flatten.mp hz with ⟨l, hl, hzl⟩
  rcases List.mem_map.mp hl with ⟨q, hq, rfl⟩
  rw [hkeys q hq z hzl]
  exact List.mem_map.mpr ⟨q, hq, rfl⟩

theorem blocks_contiguity (vb : String → String) :
    ∀ (blocks : List (String × List String)),
      (blocks.map Prod.fst).Nodup →
      (∀ p ∈ blocks, ∀ x ∈ p.2, vb x = p.1) →
      ∀ i j k x y z, i < j → j < k →
        ((blocks.map Prod.snd).flatten).get? i = some x →
        ((blocks.map Prod.snd).flatten).get? j = some y →
        ((blocks.map Prod.snd).flatten).get? k = some z →
        vb x = vb z → vb y = vb x := by
  intro blocks
  induction blocks with
  | nil =>
    intro _ _ i j k x y z _ _ hx _ _ _
    simp at hx
  | cons p rest ih =>
    intro hnd hkeys i j k x y z hij hjk hx hy hz hxz
    obtain ⟨b0, vs0⟩ := p
    simp only [List.map_cons, List.flatten_cons] at hx hy hz
    simp only [List.map_cons, List.nodup_cons] at hnd
    have hkey0 : ∀ x ∈ vs0, vb x = b0 := fun x hx =>
      hkeys (b0, vs0) (List.mem_cons_self _ _) x hx
    have hkeyr : ∀ p ∈ rest, ∀ x ∈ p.2, vb x = p.1 := fun p hp =>
      hkeys p (List.mem_cons_of_mem _ hp)
    by_cases hk : k < vs0.length
    · have hi : i < vs0.length := lt_trans (lt_trans hij hjk) hk
      have hj : j < vs0.length := lt_trans hjk hk
      rw [List.get?_append hi] at hx
      rw [List.get?_append hj] at hy
      have hxm : x ∈ vs0 := List.get?_mem hx
      have hym : y ∈ vs0 := List.get?_mem hy
      rw [hkey0 x hxm, hkey0 y hym]
    · have hlk : vs0.length ≤ k := le_of_not_lt hk
      by_cases hi : i < vs0.length
      · exfalso
        rw [List.get?_append hi] at hx
        have hxm : x ∈ vs0 := List.get?_mem hx
        rw [List.get?_append_right hlk] at hz
        have hzm : z ∈ (rest.map Prod.snd).flatten := List.get?_mem hz
        have hzkey : vb z ∈ rest.map Prod.fst := mem_flatten_blocks_key vb rest hkeyr z hzm
        rw [← hxz, hkey0 x hxm] at hzkey
        exact hnd.1 hzkey
      · have hli : vs0.length ≤ i := le_of_not_lt hi
        have hlj : vs0.length ≤ j := le_trans hli (le_of_lt hij)
        rw [List.get?_append_right hli] at hx
        rw [List.get?_append_right hlj] at hy
        rw [List.get?_append_right hlk] at hz
        exact ih hnd.2 hkeyr (i - vs0.length) (j - vs0.length) (k - vs0.length) x y z
          (by omega) (by omega) hx hy hz hxz

/-! ### The code-point string order -/

theorem strLtList_asymm : ∀ (x y : List Char),
    strLtList x y = true → strLtList y x = false := by
  intro x
  induction x with
  | nil =>
    intro y h
    cases y with
    | nil => simp [strLtList] at h
    | cons b bs => simp [strLtList]
  | cons a as ih =>
    intro y h
    cases y with
    | nil => simp [strLtList] at h
    | cons b bs =>
      simp only [strLtList] at h ⊢
      by_cases hab : a < b
      · rw [if_neg (lt_asymm hab), if_pos hab]
      · rw [if_neg hab] at h
        by_cases hba : b < a
        · rw [if_pos hba] at h
          simp at h
        · rw [if_neg hba] at h
          rw [if_neg hba, if_neg hab]
          exact ih bs h

theorem strLtList_antisymm : ∀ (x y : List Char),
    strLtList x y = false → strLtList y x = false → x = y := by
  intro x
  induction x with
  | nil =>
    intro y h1 _
    cases y with
    | nil => rfl
    | cons b bs => simp [strLtList] at h1
  | cons a as ih =>
    intro y h1 h2
    cases y with
    | nil => simp [strLtList] at h2
    | cons b bs =>
      simp only [strLtList] at h1 h2
      by_cases hab : a < b
      · rw [if_pos hab] at h1; simp at h1
      · by_cases hba : b < a
        · rw [if_pos hba] at h2; simp at h2
        · have hchar : a = b := le_antisymm (not_lt.mp hba) (not_lt.mp hab)
          rw [if_neg hab, if_neg hba] at h1
          rw [if_neg hba, if_neg hab] at h2
          rw [hchar, ih bs h1 h2]

theorem strLtList_trans : ∀ (x y z : List Char),
    strLtList x y = true → strLtList y z = true → strLtList x z = true := by
  intro x
  induction x with
  | nil =>
    intro y z h1 h2
    cases y with
    | nil => simp [strLtList] at h1
    | cons b bs =>
      cases z with
      | nil => simp [strLtList] at h2
      | cons c cs => simp [strLtList]
  | cons a as ih =>
    intro y z h1 h2
    cases y with
    | nil => simp [strLtList] at h1
    | cons b bs =>
      cases z with
      | nil => simp [strLtList] at h2
      | cons c cs =>
        simp only [strLtList] at h1 h2 ⊢
        by_cases hab : a < b
        · by_cases hbc : b < c
          · rw [if_pos (lt_trans hab hbc)]
          · by_cases hcb : c < b
            · rw [if_neg hbc, if_pos hcb] at h2
              simp at h2
            · have hbc2 : b = c := le_antisymm (not_lt.mp hcb) (not_lt.mp hbc)
              rw [if_pos (hbc2 ▸ hab)]
        · by_cases hba : b < a
          · rw [if_neg hab, if_pos hba] at h1
            simp at h1
          · have hba2 : a = b := le_antisymm (not_lt.mp hba) (not_lt.mp hab)
            rw [if_neg hab, if_neg hba] at h1
            subst hba2
            by_cases hbc : a < c
            · rw [if_pos hbc]
            · by_cases hcb : c < a
              · rw [if_neg hbc, if_pos hcb] at h2
                simp at h2
              · have : a = c := le_antisymm (not_lt.mp hcb) (not_lt.mp hbc)
                subst this
                rw [if_neg hbc, if_neg hcb] at h2 ⊢
                exact ih bs cs h1 h2

theorem strLt_asymm (a b : String) : strLt a b = true → strLt b a = false :=
  strLtList_asymm a.data b.data

theorem strLt_antisymm (a b : String) :
    strLt a b = false → strLt b a = false → a = b := by
  intro h1 h2
  exact String.ext (strLtList_antisymm a.data b.data h1 h2)

theorem strLt_trans (a b c : String) :
    strLt a b = true → strLt b c = true → strLt a c = true :=
  strLtList_trans a.data b.data c.data

theorem strLt_neg_trans (a b c : String) :
    strLt b a = false → strLt c b = false → strLt c a = false := by
  intro h1 h2
  cases h : strLt c a with
  | false => rfl
  | true =>
    exfalso
    cases h3 : strLt a b with
    | true =>
      have h4 := strLt_trans c a b h h3
      rw [h4] at h2
      simp at h2
    | false =>
      have hab : a = b := strLt_antisymm a b h3 h1
      subst hab
      rw [h] at h2
      simp at h2

theorem strLtList_irrefl : ∀ (x : List Char), strLtList x x = false := by
  intro x
  induction x with
  | nil => rfl
  | cons a as ih =>
    simp only [strLtList]
    rw [if_neg (lt_irrefl a), if_neg (lt_irrefl a)]
    exact ih

theorem strLt_irrefl (a : String) : strLt a a = false :=
  strLtList_irrefl a.data

/-! ### The ladder comparator as a strict lexicographic order -/

theorem ladderLt_iff (state : AppState) (a b : String) :
    ladderLt state a b = true ↔
      verbFormRank (cardVerbForm state a) < verbFormRank (cardVerbForm state b) ∨
      (verbFormRank (cardVerbForm state a) = verbFormRank (cardVerbForm state b) ∧
        (strLt (cardAnswer state a) (cardAnswer state b) = true ∨
          (cardAnswer state a = cardAnswer state b ∧ strLt a b = true))) := by
  unfold ladderLt
  by_cases hr : verbFormRank (cardVerbForm state a) = verbFormRank (cardVerbForm state b)
  · rw [if_neg (fun hne => hne hr)]
    cases hs1 : strLt (cardAnswer state a) (cardAnswer state b) with
    | true => simp [hr, hs1]
    | false =>
      cases hs2 : strLt (cardAnswer state b) (cardAnswer state a) with
      | true =>
        have hne : ¬ (cardAnswer state a = cardAnswer state b) := by
          intro he
          rw [he] at hs2
          rw [strLt_irrefl] at hs2
          exact Bool.false_ne_true hs2
        simp [hr, hs1, hs2, hne]
      | false =>
        have heq : cardAnswer state a = cardAnswer state b := strLt_antisymm _ _ hs1 hs2
        simp [hr, hs1, hs2, heq, strLt_irrefl]
  · rw [if_pos hr]
    simp [hr]

theorem ladderLt_asymm (state : AppState) (a b : String)
    (h : ladderLt state a b = true) : ladderLt state b a = false := by
  cases hba : ladderLt state b a with
  | false => rfl
  | true =>
    exfalso
    rw [ladderLt_iff] at h hba
    rcases h with h1 | ⟨h2, h3⟩
    · rcases hba with g1 | ⟨g2, _⟩
      · omega
      · omega
    · rcases hba with g1 | ⟨g2, g3⟩
      · omega
      · rcases h3 with h3 | ⟨h4, h5⟩
        · rcases g3 with g3 | ⟨g4, _⟩
          · rw [strLt_asymm _ _ h3] at g3
            exact Bool.false_ne_true g3
          · rw [g4] at h3
            rw [strLt_irrefl] at h3
            exact Bool.false_ne_true h3
        · rcases g3 with g3 | ⟨_, g5⟩
          · rw [h4] at g3
            rw [strLt_irrefl] at g3
            exact Bool.false_ne_true g3
          · rw [strLt_asymm _ _ h5] at g5
            exact Bool.false_ne_true g5

theorem ladderLt_antisymm (state : AppState) (a b : String)
    (h1 : ladderLt state a b = false) (h2 : ladderLt state b a = false) : a = b := by
  rcases lt_trichotomy (verbFormRank (cardVerbForm state a))
      (verbFormRank (cardVerbForm state b)) with hlt | heq | hgt
  · have h := (ladderLt_iff state a b).mpr (Or.inl hlt)
    rw [h] at h1
    simp at h1
  · cases hs1 : strLt (cardAnswer state a) (cardAnswer state b) with
    | true =>
      have h := (ladderLt_iff state a b).mpr (Or.inr ⟨heq, Or.inl hs1⟩)
      rw [h] at h1
      simp at h1
    | false =>
      cases hs2 : strLt (cardAnswer state b) (cardAnswer state a) with
      | true =>
        have h := (ladderLt_iff state b a).mpr (Or.inr ⟨heq.symm, Or.inl hs2⟩)
        rw [h] at h2
        simp at h2
      | false =>
        have hans : cardAnswer state a = cardAnswer state b := strLt_antisymm _ _ hs1 hs2
        cases hid1 : strLt a b with
        | true =>
          have h := (ladderLt_iff state a b).mpr (Or.inr ⟨heq, Or.inr ⟨hans, hid1⟩⟩)
          rw [h] at h1
          simp at h1
        | false =>
          cases hid2 : strLt b a with
          | true =>
            have h := (ladderLt_iff state b a).mpr
              (Or.inr ⟨heq.symm, Or.inr ⟨hans.symm, hid2⟩⟩)
            rw [h] at h2
            simp at h2
          | false => exact strLt_antisymm a b hid1 hid2
  · have h := (ladderLt_iff state b a).mpr (Or.inl hgt)
    rw [h] at h2
    simp at h2

theorem ladderLt_neg_trans (state : AppState) (a b c : String)
    (h1 : ladderLt state b a = false) (h2 : ladderLt state c b = false) :
    ladderLt state c a = false := by
  cases hca : ladderLt state c a with
  | false => rfl
  | true =>
    exfalso
    rw [ladderLt_iff] at hca
    have hn1 : ¬ (verbFormRank (cardVerbForm state b) < verbFormRank (cardVerbForm state a)) := by
      intro h
      have hh := (ladderLt_iff state b a).mpr (Or.inl h)
      rw [hh] at h1
      simp at h1
    have hn2 : ¬ (verbFormRank (cardVerbForm state c) < verbFormRank (cardVerbForm state b)) := by
      intro h
      have hh := (ladderLt_iff state c b).mpr (Or.inl h)
      rw [hh] at h2
      simp at h2
    rcases hca with h | ⟨heq, hs⟩
    · omega
    · have hbeq : verbFormRank (cardVerbForm state b) = verbFormRank (cardVerbForm state a) := by
        omega
      have hceqb : verbFormRank (cardVerbForm state c) = verbFormRank (cardVerbForm state b) := by
        omega
      have hs1 : strLt (cardAnswer state b) (cardAnswer state a) = false := by
        cases h : strLt (cardAnswer state b) (cardAnswer state a) with
        | false => rfl
        | true =>
          exfalso
          have hh := (ladderLt_iff state b a).mpr (Or.inr ⟨hbeq, Or.inl h⟩)
          rw [hh] at h1
          simp at h1
      have hs2 : strLt (cardAnswer state c) (cardAnswer state b) = false := by
        cases h : strLt (cardAnswer state c) (cardAnswer state b) with
        | false => rfl
        | true =>
          exfalso
          have hh := (ladderLt_iff state c b).mpr (Or.inr ⟨hceqb, Or.inl h⟩)
          rw [hh] at h2
          simp at h2
      rcases hs with hs | ⟨hansa, hid⟩
      · rw [strLt_neg_trans _ _ _ hs1 hs2] at hs
        exact Bool.false_ne_true hs
      · have hs2a : strLt (cardAnswer state a) (cardAnswer state b) = false := by
          rw [← hansa]
          exact hs2
        have hansb : cardAnswer state b = cardAnswer state a :=
          strLt_antisymm _ _ hs1 hs2a
        have hid1 : strLt b a = false := by
          cases h : strLt b a with
          | false => rfl
          | true =>
            exfalso
            have hh := (ladderLt_iff state b a).mpr (Or.inr ⟨hbeq, Or.inr ⟨hansb, h⟩⟩)
            rw [hh] at h1
            simp at h1
        have hid2 : strLt c b = false := by
          cases h : strLt c b with
          | false => rfl
          | true =>
            exfalso
            have hcb : cardAnswer state c = cardAnswer state b := hansa.trans hansb.symm
            have hh := (ladderLt_iff state c b).mpr (Or.inr ⟨hceqb, Or.inr ⟨hcb, h⟩⟩)
            rw [hh] at h2
            simp at h2
        rw [strLt_neg_trans _ _ _ hid1 hid2] at hid
        exact Bool.false_ne_true hid

theorem orderVerb_perm (state : AppState) (ids : List String) :
    List.Perm (orderVerbCardsForLadder state ids) ids :=
  insSort_perm (ladderLt state) ids

theorem orderVerb_sorted (state : AppState) (ids : List String) :
    List.Pairwise (fun a b => ladderLt state b a = false)
      (orderVerbCardsForLadder state ids) :=
  insSort_pairwise (ladderLt state) (ladderLt_asymm state) (ladderLt_neg_trans state) ids

theorem orderVerb_eq_of_perm (state : AppState) (ids ids' : List String)
    (h : List.Perm ids ids') :
    orderVerbCardsForLadder state ids = orderVerbCardsForLadder state ids' := by
  haveI : IsAntisymm String (fun a b => ladderLt state b a = false) :=
    ⟨fun a b h1 h2 => ladderLt_antisymm state a b h2 h1⟩
  exact List.eq_of_perm_of_sorted
    ((orderVerb_perm state ids).trans (h.trans (orderVerb_perm state ids').symm))
    (orderVerb_sorted state ids) (orderVerb_sorted state ids')

/-! ### Ordered keyed blocks: facts shared by the two ladder queue builders -/

theorem flatten_pointwise_perm {α β : Type} (f g : β → List α) (l : List β)
    (h : ∀ p ∈ l, List.Perm (f p) (g p)) :
    List.Perm ((l.map f).flatten) ((l.map g).flatten) := by
  induction l with
  | nil => exact .refl _
  | cons p rest ih =>
    simp only [List.map_cons, List.flatten_cons]
    exact List.Perm.append (h p (List.mem_cons_self _ _))
      (ih (fun q hq => h q (List.mem_cons_of_mem _ hq)))

theorem orderedBlocks_nodup_keys {κ α : Type} [DecidableEq κ] (key : α → κ)
    (sortfn : List α → List α) (l : List α) (blocks : List (κ × List α))
    (hperm : List.Perm blocks
      ((groupByKey key l).map (fun q => (q.1, sortfn q.2)))) :
    (blocks.map Prod.fst).Nodup := by
  have h1 := hperm.map Prod.fst
  have h2 : ((groupByKey key l).map (fun q => (q.1, sortfn q.2))).map Prod.fst
      = (groupByKey key l).map Prod.fst := by
    rw [List.map_map]
    rfl
  rw [h2] at h1
  exact h1.symm.nodup (nodup_keys_groupByKey key l)

theorem orderedBlocks_key_const {κ α : Type} [DecidableEq κ] (key : α → κ)
    (sortfn : List α → List α) (l : List α) (blocks : List (κ × List α))
    (hperm : List.Perm blocks
      ((groupByKey key l).map (fun q => (q.1, sortfn q.2))))
    (hsort : ∀ ids, List.Perm (sortfn ids) ids) :
    ∀ p ∈ blocks, ∀ x ∈ p.2, key x = p.1 := by
  intro p hp x hx
  have hp2 := hperm.mem_iff.mp hp
  rcases List.mem_map.mp hp2 with ⟨q, hq, rfl⟩
  exact mem_bucket_key key l q hq x ((hsort q.2).mem_iff.mp hx)

theorem orderedBlocks_flatten_perm {κ α : Type} [DecidableEq κ] (key : α → κ)
    (sortfn : List α → List α) (l : List α) (blocks : List (κ × List α))
    (hperm : List.Perm blocks
      ((groupByKey key l).map (fun q => (q.1, sortfn q.2))))
    (hsort : ∀ ids, List.Perm (sortfn ids) ids) :
    List.Perm ((blocks.map Prod.snd).flatten) l := by
  have h1 := (hperm.map Prod.snd).flatten
  have h2 : ((groupByKey key l).map (fun q => (q.1, sortfn q.2))).map Prod.snd
      = (groupByKey key l).map (fun q => sortfn q.2) := by
    rw [List.map_map]
    rfl
  rw [h2] at h1
  have h3 := flatten_pointwise_perm (fun q => sortfn q.2) Prod.snd (groupByKey key l)
    (fun p _ => hsort p.2)
  exact (h1.trans h3).trans (groupByKey_flatten_perm key l)

theorem orderedBlocks_ne_nil {κ α : Type} [DecidableEq κ] (key : α → κ)
    (sortfn : List α → List α) (l : List α) (blocks : List (κ × List α))
    (hperm : List.Perm blocks
      ((groupByKey key l).map (fun q => (q.1, sortfn q.2))))
    (hsort : ∀ ids, List.Perm (sortfn ids) ids) :
    ∀ p ∈ blocks, p.2 ≠ [] := by
  intro p hp hnil
  have hp2 := hperm.mem_iff.mp hp
  rcases List.mem_map.mp hp2 with ⟨q, hq, rfl⟩
  have hpm := hsort q.2
  rw [show (q.1, sortfn q.2).2 = sortfn q.2 from rfl] at hnil
  rw [hnil] at hpm
  exact bucket_ne_nil key l q hq (List.perm_nil.mp hpm.symm)

theorem reviewBlocks_perm (state : AppState) (deck : Deck) (now : ℚ) :
    List.Perm ((reviewGroups state deck now).map (fun g => (g.base, g.ids)))
      ((groupByKey (verbBaseKey state) (dueLadderIds state deck now)).map
        (fun q => (q.1, orderVerbCardsForLadder state q.2))) := by
  unfold reviewGroups
  have h1 := (insSort_perm (fun a b : RGroup => decide (a.minDue < b.minDue))
    ((groupByKey (verbBaseKey state) (dueLadderIds state deck now)).map
      (fun p => (⟨p.1, orderVerbCardsForLadder state p.2,
        listMin (p.2.map (fun id => dueOf state id now))⟩ : RGroup)))).map
    (fun g : RGroup => (g.base, g.ids))
  rw [List.map_map] at h1
  exact h1

theorem practiceBlocks_perm (state : AppState) (deck : Deck) (now : ℚ) :
    List.Perm ((practiceGroups state deck now).map (fun g => (g.base, g.ids)))
      ((groupByKey (verbBaseKey state) (eligLadderIds state deck)).map
        (fun q => (q.1, orderVerbCardsForLadder state q.2))) := by
  unfold practiceGroups
  have h1 := (insSort_perm (fun a b : PGroup =>
      decide (a.avgReviews < b.avgReviews ∨
        (a.avgReviews = b.avgReviews ∧ a.minDue < b.minDue)))
    ((groupByKey (verbBaseKey state) (eligLadderIds state deck)).map
      (fun p =>
        (⟨p.1, orderVerbCardsForLadder state p.2,
          if (orderVerbCardsForLadder state p.2).isEmpty then 0
          else (((orderVerbCardsForLadder state p.2).map
            (fun id => (reviewsOf state id : ℚ))).sum) /
              ((orderVerbCardsForLadder state p.2).length : ℚ),
          listMin ((orderVerbCardsForLadder state p.2).map
            (fun id => dueOf state id now))⟩ : PGroup)))).map
    (fun g : PGroup => (g.base, g.ids))
  rw [List.map_map] at h1
  exact h1

theorem reviewQueue_flatten_eq (state : AppState) (deck : Deck) (now : ℚ) :
    (((reviewGroups state deck now).map (fun g => (g.base, g.ids))).map Prod.snd).flatten
      = ((reviewGroups state deck now).map RGroup.ids).flatten := by
  rw [List.map_map]
  rfl

theorem reviewQueue_perm (state : AppState) (deckId : String) (deck : Deck) (now : ℚ)
    (hdeck : state.decks deckId = some deck) :
    List.Perm (getVerbLadderQueueForReview state deckId now)
      (dueLadderIds state deck now) := by
  have hun : getVerbLadderQueueForReview state deckId now
      = if (dueLadderIds state deck now).isEmpty = true then []
        else ((reviewGroups state deck now).map RGroup.ids).flatten := by
    unfold getVerbLadderQueueForReview
    rw [hdeck]
  rw [hun]
  cases hemp : (dueLadderIds state deck now).isEmpty with
  | true =>
    rw [if_pos rfl, List.isEmpty_iff.mp hemp]
  | false =>
    rw [if_neg Bool.false_ne_true]
    have h2 := orderedBlocks_flatten_perm (verbBaseKey state)
      (orderVerbCardsForLadder state) (dueLadderIds state deck now)
      ((reviewGroups state deck now).map (fun g => (g.base, g.ids)))
      (reviewBlocks_perm state deck now) (orderVerb_perm state)
    rw [reviewQueue_flatten_eq] at h2
    exact h2

theorem filterMap_due_fst (state : AppState) (now : ℚ) (l : List String) :
    ((l.filterMap (fun id =>
        if dueOf state id now ≤ now then some (id, dueOf state id now) else none)).map
      Prod.fst)
      = l.filter (fun id => decide (dueOf state id now ≤ now)) := by
  induction l with
  | nil => rfl
  | cons x xs ih =>
    by_cases h : dueOf state x now ≤ now
    · simp [List.filterMap_cons, h, ih]
    · simp [List.filterMap_cons, h, ih]

theorem getDue_flat_perm (state : AppState) (deckId : String) (deck : Deck) (now : ℚ)
    (r : ℕ → ℕ)
    (hdeck : state.decks deckId = some deck)
    (hconj : isVerbConjugationDeck state deckId = false) :
    List.Perm (getDueCardIdsForDeck state deckId now r)
      (deck.cardIds.filter (fun id => decide (dueOf state id now ≤ now))) := by
  have hun : getDueCardIdsForDeck state deckId now r
      = if isVerbConjugationDeck state deckId = true then
          getVerbLadderQueueForReview state deckId now
        else
          shuffled r
            ((insSort (fun a b : String × ℚ => decide (a.2 < b.2))
              (deck.cardIds.filterMap (fun id =>
                if dueOf state id now ≤ now then some (id, dueOf state id now)
                else none))).map Prod.fst) := by
    unfold getDueCardIdsForDeck
    rw [hdeck]
  rw [hun, if_neg (by rw [hconj]; exact Bool.false_ne_true)]
  have h1 := shuffled_perm r
    ((insSort (fun a b : String × ℚ => decide (a.2 < b.2))
      (deck.cardIds.filterMap (fun id =>
        if dueOf state id now ≤ now then some (id, dueOf state id now) else none))).map
      Prod.fst)
  have h2 := (insSort_perm (fun a b : String × ℚ => decide (a.2 < b.2))
    (deck.cardIds.filterMap (fun id =>
      if dueOf state id now ≤ now then some (id, dueOf state id now) else none))).map
    Prod.fst
  have h3 := h1.trans h2
  rw [filterMap_due_fst] at h3
  exact h3

theorem filter_eq_singleton {α : Type} [DecidableEq α] (p : α → Bool) (d : α) :
    ∀ (l : List α), l.Nodup → d ∈ l → p d = true →
      (∀ x ∈ l, x ≠ d → p x = false) → l.filter p = [d] := by
  intro l
  induction l with
  | nil => intro _ h; simp at h
  | cons a rest ih =>
    intro hnd hd hpd hothers
    rw [List.nodup_cons] at hnd
    rcases List.mem_cons.mp hd with rfl | hdrest
    · have hrest : rest.filter p = [] := by
        rw [List.filter_eq_nil_iff]
        intro x hx
        have hxne : x ≠ d := fun he => hnd.1 (he ▸ hx)
        simp [hothers x (List.mem_cons_of_mem _ hx) hxne]
      simp [List.filter_cons, hpd, hrest]
    · have had : a ≠ d := fun he => hnd.1 (he ▸ hdrest)
      have hpa : p a = false := hothers a (List.mem_cons_self _ _) had
      rw [List.filter_cons, if_neg (by simp [hpa])]
      exact ih hnd.2 hdrest hpd (fun x hx => hothers x (List.mem_cons_of_mem _ hx))

/-! ### Unfolding getDueCardIdsForDeck past the deck lookup -/

theorem getDue_unfold (state : AppState) (deckId : String) (now : ℚ) (r : ℕ → ℕ)
    (deck : Deck) (hdeck : state.decks deckId = some deck) :
    getDueCardIdsForDeck state deckId now r
      = if isVerbConjugationDeck state deckId = true then
          getVerbLadderQueueForReview state deckId now
        else
          shuffled r
            ((insSort (fun a b : String × ℚ => decide (a.2 < b.2))
              (deck.cardIds.filterMap (fun id =>
                if dueOf state id now ≤ now then some (id, dueOf state id now)
                else none))).map Prod.fst) := by
  unfold getDueCardIdsForDeck
  rw [hdeck]

/-! ### Claims about the due-set selector -/

/-- C3 counterexample: in a conjugation-named deck a due vocab card is
excluded from `getDueCardIdsForDeck` (the ladder path skips card objects that
fail the generated-verb-card guard), so a due card of the deck fails to appear
exactly once. -/
theorem C3_counterexample :
    exConjVocabState.decks "d" = some ⟨"d", "Verb Conjugation", ["c1"]⟩ ∧
    dueOf exConjVocabState "c1" 0 ≤ 0 ∧
    getDueCardIdsForDeck exConjVocabState "d" 0 (fun _ => 0) = [] := by
  refine ⟨rfl, le_refl 0, ?_⟩
  rfl

/-- C3 (amended): `getDueCardIdsForDeck` never returns a card whose (defaulted)
due timestamp exceeds `now`; and when the deck's card list is duplicate-free,
every card of the deck with due <= now — additionally required to pass the
generated-verb-card guard when the deck is conjugation-flavored — appears
exactly once in the result. -/
theorem C3_due_set (state : AppState) (deckId : String) (now : ℚ) (r : ℕ → ℕ) :
    (∀ x ∈ getDueCardIdsForDeck state deckId now r, dueOf state x now ≤ now) ∧
    (∀ deck, state.decks deckId = some deck → deck.cardIds.Nodup →
      ∀ id ∈ deck.cardIds,
        (isVerbConjugationDeck state deckId = true → ladderEligible state id = true) →
        dueOf state id now ≤ now →
        (getDueCardIdsForDeck state deckId now r).count id = 1) := by
  constructor
  · intro x hx
    cases hdeck : state.decks deckId with
    | none =>
      have hnil : getDueCardIdsForDeck state deckId now r = [] := by
        unfold getDueCardIdsForDeck
        rw [hdeck]
      rw [hnil] at hx
      simp at hx
    | some deck =>
      cases hconj : isVerbConjugationDeck state deckId with
      | true =>
        rw [getDue_unfold state deckId now r deck hdeck, if_pos hconj] at hx
        have hmem := (reviewQueue_perm state deckId deck now hdeck).mem_iff.mp hx
        have hb := (Bool.and_eq_true _ _).mp (List.mem_filter.mp hmem).2
        exact of_decide_eq_true hb.2
      | false =>
        have hmem := (getDue_flat_perm state deckId deck now r hdeck hconj).mem_iff.mp hx
        exact of_decide_eq_true (List.mem_filter.mp hmem).2
  · intro deck hdeck hnd id hid helig hdue
    cases hconj : isVerbConjugationDeck state deckId with
    | true =>
      have hidin : id ∈ dueLadderIds state deck now := by
        unfold dueLadderIds
        rw [List.mem_filter]
        refine ⟨hid, ?_⟩
        rw [helig hconj]
        simpa using hdue
      have hperm := reviewQueue_perm state deckId deck now hdeck
      rw [getDue_unfold state deckId now r deck hdeck, if_pos hconj, hperm.count_eq id]
      exact List.count_eq_one_of_mem (hnd.filter _) hidin
    | false =>
      have hperm := getDue_flat_perm state deckId deck now r hdeck hconj
      have hidin : id ∈ deck.cardIds.filter (fun x => decide (dueOf state x now ≤ now)) := by
        rw [List.mem_filter]
        exact ⟨hid, by simpa using hdue⟩
      rw [hperm.count_eq id]
      exact List.count_eq_one_of_mem (hnd.filter _) hidin

/-- C3 witness at a concrete two-card deck. -/
theorem C3_witness :
    (getDueCardIdsForDeck exFlatState "f" 0 (fun _ => 0)).count "a" = 1 :=
  (C3_due_set exFlatState "f" 0 (fun _ => 0)).2 ⟨"f", "Basics", ["a", "b"]⟩ rfl
    (by decide) "a" (by decide) (fun _ => rfl) (le_refl 0)

/-! ### C10: dangling card ids -/

/-- C10: a card id listed in the deck but with no card object is still served:
its base key is the id itself, it is returned by `getDueCardIdsForDeck`
whenever its defaulted recall state is due (on both the flat and the ladder
path), the ladder guard admits it, and — when no other deck card shares its
base key — it forms its own singleton base group in the review ladder. -/
theorem C10_dangling_included (state : AppState) (deckId : String) (deck : Deck)
    (d : String) (now : ℚ) (r : ℕ → ℕ)
    (hdeck : state.decks deckId = some deck)
    (hmem : d ∈ deck.cardIds)
    (hcard : state.cards d = none)
    (hdue : dueOf state d now ≤ now) :
    verbBaseKey state d = d ∧
    d ∈ getDueCardIdsForDeck state deckId now r ∧
    d ∈ getVerbLadderQueueForReview state deckId now ∧
    (deck.cardIds.Nodup →
      (∀ id ∈ deck.cardIds, id ≠ d → verbBaseKey state id ≠ d) →
      (getVerbLadderQueueForReview state deckId now).filter
        (fun x => decide (verbBaseKey state x = d)) = [d]) := by
  have hvb : verbBaseKey state d = d := by
    unfold verbBaseKey
    rw [hcard]
    rfl
  have helig : ladderEligible state d = true := by
    unfold ladderEligible
    rw [hcard]
  have hdIn : d ∈ dueLadderIds state deck now := by
    unfold dueLadderIds
    rw [List.mem_filter]
    refine ⟨hmem, ?_⟩
    rw [helig]
    simpa using hdue
  have hperm := reviewQueue_perm state deckId deck now hdeck
  have hrev : d ∈ getVerbLadderQueueForReview state deckId now :=
    hperm.mem_iff.mpr hdIn
  refine ⟨hvb, ?_, hrev, ?_⟩
  · cases hconj : isVerbConjugationDeck state deckId with
    | true =>
      rw [getDue_unfold state deckId now r deck hdeck, if_pos hconj]
      exact hrev
    | false =>
      refine (getDue_flat_perm state deckId deck now r hdeck hconj).mem_iff.mpr ?_
      rw [List.mem_filter]
      exact ⟨hmem, by simpa using hdue⟩
  · intro hnd hno
    have hfperm := hperm.filter (fun x => decide (verbBaseKey state x = d))
    have hdue_filter : (dueLadderIds state deck now).filter
        (fun x => decide (verbBaseKey state x = d)) = [d] := by
      apply filter_eq_singleton _ _ _ (hnd.filter _) hdIn (by simp [hvb])
      intro x hx hxne
      have hxmem : x ∈ deck.cardIds := by
        have := List.mem_filter.mp (by exact hx)
        exact this.1
      simp [hno x hxmem hxne]
    rw [hdue_filter] at hfperm
    exact List.perm_singleton.mp hfperm

/-- C10 witness at a concrete dangling id. -/
theorem C10_witness :
    verbBaseKey exConjDanglingState "c1" = "c1" ∧
    "c1" ∈ getDueCardIdsForDeck exConjDanglingState "d" 0 (fun _ => 0) ∧
    "c1" ∈ getVerbLadderQueueForReview exConjDanglingState "d" 0 ∧
    (getVerbLadderQueueForReview exConjDanglingState "d" 0).filter
      (fun x => decide (verbBaseKey exConjDanglingState x = "c1")) = ["c1"] := by
  have h := C10_dangling_included exConjDanglingState "d"
    ⟨"d", "Verb Conjugation", ["c1"]⟩ "c1" 0 (fun _ => 0) rfl (by decide) rfl (le_refl 0)
  exact ⟨h.1, h.2.1, h.2.2.1,
    h.2.2.2 (by decide) (fun id hidm hne => absurd (List.mem_singleton.mp hidm) hne)⟩

/-! ### Claims about the practice queue builder -/

theorem getPractice_unfold (state : AppState) (deckId : String) (now : ℚ)
    (limit : ℤ) (rs : ℕ → ℕ → ℕ) (deck : Deck)
    (hdeck : state.decks deckId = some deck) :
    getPracticeCardIdsForDeck state deckId now limit rs
      = if isVerbConjugationDeck state deckId = true then
          getVerbLadderQueueForPractice state deckId now limit
        else
          if limit ≤ 0 ∨ ((practiceMergedForDeck state deckId now rs).length : ℤ) ≤ limit
          then practiceMergedForDeck state deckId now rs
          else (practiceMergedForDeck state deckId now rs).take limit.toNat := by
  unfold getPracticeCardIdsForDeck
  rw [hdeck]

theorem ladderPractice_unfold (state : AppState) (deckId : String) (now : ℚ)
    (limit : ℤ) (deck : Deck) (hdeck : state.decks deckId = some deck) :
    getVerbLadderQueueForPractice state deckId now limit
      = if limit ≤ 0 then []
        else
          if (ladderTake limit [] ((practiceGroups state deck now).map PGroup.ids)).isEmpty
          then
            match practiceGroups state deck now with
            | [] => []
            | g :: _ => g.ids
          else ladderTake limit [] ((practiceGroups state deck now).map PGroup.ids) := by
  unfold getVerbLadderQueueForPractice
  rw [hdeck]

/-- C4 counterexample: on a conjugation-flavored deck with one eligible card,
`limit = 0` yields the empty queue rather than the whole list (which
`limit = 1` shows to be nonempty). -/
theorem C4_counterexample :
    getPracticeCardIdsForDeck exConjDanglingState "d" 0 0 (fun _ _ => 0) = [] ∧
    getPracticeCardIdsForDeck exConjDanglingState "d" 0 1 (fun _ _ => 0) = ["c1"] := by
  constructor
  · rfl
  · rfl

/-- C4 (amended): for non-conjugation decks the practice builder returns the
merged due+remainder list whole when `limit <= 0` or `limit >=` its length and
otherwise truncates it to `limit`; conjugation-flavored decks are served by
the ladder practice path instead, which returns the empty list whenever
`limit <= 0`. -/
theorem C4_practice_truncation (state : AppState) (deckId : String) (now : ℚ)
    (limit : ℤ) (rs : ℕ → ℕ → ℕ) :
    (isVerbConjugationDeck state deckId = false →
      getPracticeCardIdsForDeck state deckId now limit rs
        = if limit ≤ 0 ∨ ((practiceMergedForDeck state deckId now rs).length : ℤ) ≤ limit
          then practiceMergedForDeck state deckId now rs
          else (practiceMergedForDeck state deckId now rs).take limit.toNat) ∧
    (isVerbConjugationDeck state deckId = true →
      getPracticeCardIdsForDeck state deckId now limit rs
        = getVerbLadderQueueForPractice state deckId now limit) ∧
    (limit ≤ 0 → isVerbConjugationDeck state deckId = true →
      getPracticeCardIdsForDeck state deckId now limit rs = []) := by
  cases hdeck : state.decks deckId with
  | none =>
    have hp : getPracticeCardIdsForDeck state deckId now limit rs = [] := by
      unfold getPracticeCardIdsForDeck
      rw [hdeck]
    have hm : practiceMergedForDeck state deckId now rs = [] := by
      unfold practiceMergedForDeck
      rw [hdeck]
    have hl : getVerbLadderQueueForPractice state deckId now limit = [] := by
      unfold getVerbLadderQueueForPractice
      rw [hdeck]
    refine ⟨?_, ?_, ?_⟩
    · intro _
      rw [hp, hm]
      simp
    · intro _
      rw [hp, hl]
    · intro _ _
      rw [hp]
  | some deck =>
    refine ⟨?_, ?_, ?_⟩
    · intro hconj
      rw [getPractice_unfold state deckId now limit rs deck hdeck,
        if_neg (by rw [hconj]; exact Bool.false_ne_true)]
    · intro hconj
      rw [getPractice_unfold state deckId now limit rs deck hdeck, if_pos hconj]
    · intro hlim hconj
      rw [getPractice_unfold state deckId now limit rs deck hdeck, if_pos hconj,
        ladderPractice_unfold state deckId now limit deck hdeck, if_pos hlim]

/-- C4 witness at a concrete non-conjugation deck. -/
theorem C4_witness :
    getPracticeCardIdsForDeck exFlatState "f" 0 5 (fun _ _ => 0)
      = if (5 : ℤ) ≤ 0 ∨ ((practiceMergedForDeck exFlatState "f" 0 (fun _ _ => 0)).length : ℤ) ≤ 5
        then practiceMergedForDeck exFlatState "f" 0 (fun _ _ => 0)
        else (practiceMergedForDeck exFlatState "f" 0 (fun _ _ => 0)).take (5 : ℤ).toNat :=
  (C4_practice_truncation exFlatState "f" 0 5 (fun _ _ => 0)).1 (by rfl)

/-- C5 counterexample: with `limit = 0` the ladder practice queue is empty
even though an eligible card exists. -/
theorem C5_counterexample :
    getVerbLadderQueueForPractice exConjDanglingState "d" 0 0 = [] ∧
    "c1" ∈ (⟨"d", "Verb Conjugation", ["c1"]⟩ : Deck).cardIds ∧
    ladderEligible exConjDanglingState "c1" = true := by
  refine ⟨rfl, by decide, rfl⟩

/-- C5 (amended): for `limit >= 1`, ladder practice returns the concatenation
of a prefix of the ordered group list (no ladder is ever split), the prefix is
nonempty whenever there are groups — so the very first group is returned whole
even when it alone exceeds the limit — greediness stops exactly when the next
group would exceed the limit, and the result is nonempty whenever some
eligible card exists; when `limit <= 0` the queue is empty (the necessary
weakening of the original claim). -/
theorem C5_ladder_practice_greedy (state : AppState) (deckId : String) (deck : Deck)
    (now : ℚ) (limit : ℤ)
    (hdeck : state.decks deckId = some deck) (hlim : 1 ≤ limit) :
    (∃ n, n ≤ (practiceGroups state deck now).length ∧
      getVerbLadderQueueForPractice state deckId now limit
        = (((practiceGroups state deck now).take n).map PGroup.ids).flatten ∧
      (practiceGroups state deck now ≠ [] → 1 ≤ n) ∧
      (∀ g1, (practiceGroups state deck now).get? n = some g1 →
        limit < ((getVerbLadderQueueForPractice state deckId now limit).length : ℤ)
          + (g1.ids.length : ℤ))) ∧
    (∀ g rest, practiceGroups state deck now = g :: rest →
      ∃ t, getVerbLadderQueueForPractice state deckId now limit = g.ids ++ t) ∧
    ((∃ id ∈ deck.cardIds, ladderEligible state id = true) →
      getVerbLadderQueueForPractice state deckId now limit ≠ []) := by
  have hnotle : ¬ (limit ≤ 0) := by omega
  have hun := ladderPractice_unfold state deckId now limit deck hdeck
  rw [if_neg hnotle] at hun
  have hne_ids : ∀ g ∈ practiceGroups state deck now, g.ids ≠ [] := by
    intro g hg
    have hb : ((g.base, g.ids) : String × List String)
        ∈ (practiceGroups state deck now).map (fun g => (g.base, g.ids)) :=
      List.mem_map.mpr ⟨g, hg, rfl⟩
    exact orderedBlocks_ne_nil (verbBaseKey state) (orderVerbCardsForLadder state)
      (eligLadderIds state deck) _ (practiceBlocks_perm state deck now)
      (orderVerb_perm state) _ hb
  have heligG : (∃ id ∈ deck.cardIds, ladderEligible state id = true) →
      practiceGroups state deck now ≠ [] := by
    rintro ⟨id, hidmem, hidelig⟩ hGnil
    have h1 : id ∈ eligLadderIds state deck := by
      unfold eligLadderIds
      rw [List.mem_filter]
      exact ⟨hidmem, hidelig⟩
    have h2 := orderedBlocks_flatten_perm (verbBaseKey state)
      (orderVerbCardsForLadder state) (eligLadderIds state deck)
      ((practiceGroups state deck now).map (fun g => (g.base, g.ids)))
      (practiceBlocks_perm state deck now) (orderVerb_perm state)
    rw [hGnil] at h2
    have h3 : eligLadderIds state deck = [] := by
      have h4 : List.Perm (eligLadderIds state deck) ([] : List String) := by
        simpa using h2.symm
      exact List.perm_nil.mp h4
    rw [h3] at h1
    simp at h1
  by_cases hGnil : practiceGroups state deck now = []
  · have hres : getVerbLadderQueueForPractice state deckId now limit = [] := by
      rw [hun, hGnil]
      rfl
    refine ⟨⟨0, by simp [hGnil], by simp [hres, hGnil], fun h => absurd hGnil h, ?_⟩,
      ?_, ?_⟩
    · intro g1 hg1
      rw [hGnil] at hg1
      simp at hg1
    · intro g rest hcons
      rw [hGnil] at hcons
      exact absurd hcons.symm (List.cons_ne_nil g rest)
    · intro helig
      exact absurd hGnil (heligG helig)
  · obtain ⟨n, hnle, heq, hfirst, hstop⟩ :=
      ladderTake_spec limit ((practiceGroups state deck now).map PGroup.ids) []
    have hn1 : 1 ≤ n := hfirst rfl (fun hm => hGnil (by simpa using hm))
    have hout_eq : ladderTake limit [] ((practiceGroups state deck now).map PGroup.ids)
        = (((practiceGroups state deck now).take n).map PGroup.ids).flatten := by
      rw [heq, List.nil_append, ← List.map_take]
    have hout_ne : ladderTake limit [] ((practiceGroups state deck now).map PGroup.ids)
        ≠ [] := by
      rw [hout_eq]
      obtain ⟨g0, rest0, hG⟩ := List.exists_cons_of_ne_nil hGnil
      rw [hG]
      cases n with
      | zero => omega
      | succ m =>
        rw [List.take_succ_cons]
        simp only [List.map_cons, List.flatten_cons]
        intro hcontra
        exact hne_ids g0 (by rw [hG]; exact List.mem_cons_self _ _)
          (List.append_eq_nil.mp hcontra).1
    have hres : getVerbLadderQueueForPractice state deckId now limit
        = ladderTake limit [] ((practiceGroups state deck now).map PGroup.ids) := by
      rw [hun, if_neg (fun hcontra => hout_ne (List.isEmpty_iff.mp hcontra))]
    refine ⟨⟨n, by simpa using hnle, by rw [hres, hout_eq], fun _ => hn1, ?_⟩, ?_, ?_⟩
    · intro g1 hg1
      have hmap : ((practiceGroups state deck now).map PGroup.ids).get? n
          = some g1.ids := by
        rw [List.get?_map, hg1]
        rfl
      have hineq := hstop g1.ids hmap (hne_ids g1 (List.get?_mem hg1))
      rw [hres]
      simpa using hineq
    · intro g rest hcons
      refine ⟨(((practiceGroups state deck now).take n).map PGroup.ids).flatten.drop
        g.ids.length, ?_⟩
      rw [hres, hout_eq, hcons]
      cases n with
      | zero => omega
      | succ m =>
        rw [List.take_succ_cons]
        simp [List.flatten_cons, List.drop_left]
    · intro _
      rw [hres]
      exact hout_ne

/-- C5 witness at a concrete one-ladder deck with limit 1. -/
theorem C5_witness :
    getVerbLadderQueueForPractice exConjDanglingState "d" 0 1 ≠ [] :=
  (C5_ladder_practice_greedy exConjDanglingState "d"
    ⟨"d", "Verb Conjugation", ["c1"]⟩ 0 1 rfl (le_refl 1)).2.2
    ⟨"c1", by decide, rfl⟩

/-! ### C6: ladder contiguity -/

theorem reviewQueue_unfold (state : AppState) (deckId : String) (now : ℚ) (deck : Deck)
    (hdeck : state.decks deckId = some deck) :
    getVerbLadderQueueForReview state deckId now
      = if (dueLadderIds state deck now).isEmpty = true then []
        else ((reviewGroups state deck now).map RGroup.ids).flatten := by
  unfold getVerbLadderQueueForReview
  rw [hdeck]

theorem pgroups_snd_flatten (gs : List PGroup) :
    ((gs.map (fun g => (g.base, g.ids))).map Prod.snd).flatten
      = (gs.map PGroup.ids).flatten := by
  rw [List.map_map]
  rfl

theorem ladderPractice_nilres (state : AppState) (deckId : String) (now : ℚ)
    (limit : ℤ) (deck : Deck) (hdeck : state.decks deckId = some deck)
    (hG : practiceGroups state deck now = []) (hlim : ¬ limit ≤ 0) :
    getVerbLadderQueueForPractice state deckId now limit = [] := by
  rw [ladderPractice_unfold state deckId now limit deck hdeck, if_neg hlim, hG]
  rfl

theorem ladderPractice_fallback (state : AppState) (deckId : String) (now : ℚ)
    (limit : ℤ) (deck : Deck) (g : PGroup) (rest : List PGroup)
    (hdeck : state.decks deckId = some deck)
    (hG : practiceGroups state deck now = g :: rest) (hlim : ¬ limit ≤ 0)
    (hout : (ladderTake limit []
      ((practiceGroups state deck now).map PGroup.ids)).isEmpty = true) :
    getVerbLadderQueueForPractice state deckId now limit = g.ids := by
  rw [ladderPractice_unfold state deckId now limit deck hdeck, if_neg hlim,
    if_pos hout, hG]

theorem ladderPractice_mainres (state : AppState) (deckId : String) (now : ℚ)
    (limit : ℤ) (deck : Deck) (hdeck : state.decks deckId = some deck)
    (hlim : ¬ limit ≤ 0)
    (hout : (ladderTake limit []
      ((practiceGroups state deck now).map PGroup.ids)).isEmpty = false) :
    getVerbLadderQueueForPractice state deckId now limit
      = ladderTake limit [] ((practiceGroups state deck now).map PGroup.ids) := by
  rw [ladderPractice_unfold state deckId now limit deck hdeck, if_neg hlim,
    if_neg (by rw [hout]; exact Bool.false_ne_true)]

/-- C6: in both the review and the practice ladder queues, two cards sharing a
verb base key never have a card of a different base key strictly between
them. -/
theorem C6_ladder_contiguity (state : AppState) (deckId : String) (now : ℚ)
    (limit : ℤ) :
    (∀ i j k x y z, i < j → j < k →
      (getVerbLadderQueueForReview state deckId now).get? i = some x →
      (getVerbLadderQueueForReview state deckId now).get? j = some y →
      (getVerbLadderQueueForReview state deckId now).get? k = some z →
      verbBaseKey state x = verbBaseKey state z →
      verbBaseKey state y = verbBaseKey state x) ∧
    (∀ i j k x y z, i < j → j < k →
      (getVerbLadderQueueForPractice state deckId now limit).get? i = some x →
      (getVerbLadderQueueForPractice state deckId now limit).get? j = some y →
      (getVerbLadderQueueForPractice state deckId now limit).get? k = some z →
      verbBaseKey state x = verbBaseKey state z →
      verbBaseKey state y = verbBaseKey state x) := by
  constructor
  · intro i j k x y z hij hjk hx hy hz hxz
    cases hdeck : state.decks deckId with
    | none =>
      have hnil : getVerbLadderQueueForReview state deckId now = [] := by
        unfold getVerbLadderQueueForReview
        rw [hdeck]
      rw [hnil] at hx
      simp at hx
    | some deck =>
      rw [reviewQueue_unfold state deckId now deck hdeck] at hx hy hz
      cases hemp : (dueLadderIds state deck now).isEmpty with
      | true =>
        rw [if_pos hemp] at hx
        simp at hx
      | false =>
        rw [if_neg (by rw [hemp]; exact Bool.false_ne_true)] at hx hy hz
        rw [← reviewQueue_flatten_eq state deck now] at hx hy hz
        exact blocks_contiguity (verbBaseKey state)
          ((reviewGroups state deck now).map (fun g => (g.base, g.ids)))
          (orderedBlocks_nodup_keys (verbBaseKey state) (orderVerbCardsForLadder state)
            (dueLadderIds state deck now) _ (reviewBlocks_perm state deck now))
          (orderedBlocks_key_const (verbBaseKey state) (orderVerbCardsForLadder state)
            (dueLadderIds state deck now) _ (reviewBlocks_perm state deck now)
            (orderVerb_perm state))
          i j k x y z hij hjk hx hy hz hxz
  · intro i j k x y z hij hjk hx hy hz hxz
    cases hdeck : state.decks deckId with
    | none =>
      have hnil : getVerbLadderQueueForPractice state deckId now limit = [] := by
        unfold getVerbLadderQueueForPractice
        rw [hdeck]
      rw [hnil] at hx
      simp at hx
    | some deck =>
      by_cases hlim : limit ≤ 0
      · have hnil : getVerbLadderQueueForPractice state deckId now limit = [] := by
          rw [ladderPractice_unfold state deckId now limit deck hdeck, if_pos hlim]
        rw [hnil] at hx
        simp at hx
      · have hkeyconst := orderedBlocks_key_const (verbBaseKey state)
          (orderVerbCardsForLadder state) (eligLadderIds state deck) _
          (practiceBlocks_perm state deck now) (orderVerb_perm state)
        cases hout : (ladderTake limit []
            ((practiceGroups state deck now).map PGroup.ids)).isEmpty with
        | true =>
          cases hG : practiceGroups state deck now with
          | nil =>
            have hnil := ladderPractice_nilres state deckId now limit deck hdeck hG hlim
            rw [hnil] at hx
            simp at hx
          | cons g rest =>
            have hres := ladderPractice_fallback state deckId now limit deck g rest
              hdeck hG hlim hout
            rw [hres] at hx hy
            have hgmem : ((g.base, g.ids) : String × List String)
                ∈ (practiceGroups state deck now).map (fun g => (g.base, g.ids)) :=
              List.mem_map.mpr ⟨g, by rw [hG]; exact List.mem_cons_self _ _, rfl⟩
            have hxkey : verbBaseKey state x = g.base :=
              hkeyconst _ hgmem x (List.get?_mem hx)
            have hykey : verbBaseKey state y = g.base :=
              hkeyconst _ hgmem y (List.get?_mem hy)
            rw [hxkey, hykey]
        | false =>
          have hres := ladderPractice_mainres state deckId now limit deck hdeck hlim hout
          obtain ⟨n, _hnle, heq, _hfirst, _hstop⟩ :=
            ladderTake_spec limit ((practiceGroups state deck now).map PGroup.ids) []
          have hout_eq : getVerbLadderQueueForPractice state deckId now limit
              = ((((practiceGroups state deck now).take n).map
                  (fun g => (g.base, g.ids))).map Prod.snd).flatten := by
            rw [hres, heq, List.nil_append, ← List.map_take, pgroups_snd_flatten]
          rw [hout_eq] at hx hy hz
          have hnodup_full := orderedBlocks_nodup_keys (verbBaseKey state)
            (orderVerbCardsForLadder state) (eligLadderIds state deck) _
            (practiceBlocks_perm state deck now)
          have hnodup : ((((practiceGroups state deck now).take n).map
              (fun g => (g.base, g.ids))).map Prod.fst).Nodup := by
            have hsub : List.Sublist
                (((practiceGroups state deck now).take n).map (fun g => (g.base, g.ids)))
                ((practiceGroups state deck now).map (fun g => (g.base, g.ids))) :=
              List.Sublist.map _ (List.take_sublist n _)
            exact List.Nodup.sublist (List.Sublist.map Prod.fst hsub) hnodup_full
          have hkeyconst2 : ∀ p ∈ ((practiceGroups state deck now).take n).map
              (fun g => (g.base, g.ids)), ∀ w ∈ p.2, verbBaseKey state w = p.1 := by
            intro p hp w hw
            rcases List.mem_map.mp hp with ⟨g, hg, rfl⟩
            exact hkeyconst _ (List.mem_map.mpr
              ⟨g, List.take_subset n _ hg, rfl⟩) w hw
          exact blocks_contiguity (verbBaseKey state) _ hnodup hkeyconst2
            i j k x y z hij hjk hx hy hz hxz

/-- C6 witness at a concrete three-form ladder. -/
theorem C6_witness :
    verbBaseKey exLadderState "c2" = verbBaseKey exLadderState "c1" :=
  (C6_ladder_contiguity exLadderState "d" 0 12).1 0 1 2 "c1" "c2" "c3"
    (by decide) (by decide) (by decide) (by decide) (by decide) (by decide)

/-! ### C7: form-rank ordering within a ladder -/

theorem ladderLt_false_imp_le (state : AppState) (a b : String)
    (h : ladderLt state b a = false) :
    verbFormRank (cardVerbForm state a) < verbFormRank (cardVerbForm state b) ∨
    (verbFormRank (cardVerbForm state a) = verbFormRank (cardVerbForm state b) ∧
      (strLt (cardAnswer state a) (cardAnswer state b) = true ∨
        (cardAnswer state a = cardAnswer state b ∧ (strLt a b = true ∨ a = b)))) := by
  rcases lt_trichotomy (verbFormRank (cardVerbForm state a))
      (verbFormRank (cardVerbForm state b)) with hlt | heq | hgt
  · exact Or.inl hlt
  · refine Or.inr ⟨heq, ?_⟩
    cases hs1 : strLt (cardAnswer state a) (cardAnswer state b) with
    | true => exact Or.inl rfl
    | false =>
      cases hs2 : strLt (cardAnswer state b) (cardAnswer state a) with
      | true =>
        exfalso
        have hh := (ladderLt_iff state b a).mpr (Or.inr ⟨heq.symm, Or.inl hs2⟩)
        rw [hh] at h
        simp at h
      | false =>
        have hans := strLt_antisymm _ _ hs1 hs2
        refine Or.inr ⟨hans, ?_⟩
        cases hid1 : strLt a b with
        | true => exact Or.inl rfl
        | false =>
          cases hid2 : strLt b a with
          | true =>
            exfalso
            have hh := (ladderLt_iff state b a).mpr
              (Or.inr ⟨heq.symm, Or.inr ⟨hans.symm, hid2⟩⟩)
            rw [hh] at h
            simp at h
          | false => exact Or.inr (strLt_antisymm a b hid1 hid2)
  · exfalso
    have hh := (ladderLt_iff state b a).mpr (Or.inl hgt)
    rw [hh] at h
    simp at h

/-- C7: `orderVerbCardsForLadder` sorts by the fixed form-rank table
(dictionary 0, polite-present 1, polite-negative 2, te 3, progressive 4,
past 5, negative 6, past-negative 7, want 8, dont-want 9, want-past 10,
dont-want-past 11), ties broken by answer string and then card id, and the
output depends only on the multiset of input ids (not their order). -/
theorem C7_ladder_order (state : AppState) :
    (verbFormRank (some "dictionary") = 0 ∧ verbFormRank (some "polite_present") = 1 ∧
     verbFormRank (some "polite_negative") = 2 ∧ verbFormRank (some "te") = 3 ∧
     verbFormRank (some "progressive") = 4 ∧ verbFormRank (some "past") = 5 ∧
     verbFormRank (some "negative") = 6 ∧ verbFormRank (some "past_negative") = 7 ∧
     verbFormRank (some "want") = 8 ∧ verbFormRank (some "dont_want") = 9 ∧
     verbFormRank (some "want_past") = 10 ∧ verbFormRank (some "dont_want_past") = 11) ∧
    (∀ ids, List.Perm (orderVerbCardsForLadder state ids) ids ∧
      List.Pairwise (fun a b =>
        verbFormRank (cardVerbForm state a) < verbFormRank (cardVerbForm state b) ∨
        (verbFormRank (cardVerbForm state a) = verbFormRank (cardVerbForm state b) ∧
          (strLt (cardAnswer state a) (cardAnswer state b) = true ∨
            (cardAnswer state a = cardAnswer state b ∧ (strLt a b = true ∨ a = b)))))
        (orderVerbCardsForLadder state ids)) ∧
    (∀ ids ids', List.Perm ids ids' →
      orderVerbCardsForLadder state ids = orderVerbCardsForLadder state ids') := by
  refine ⟨?_, ?_, orderVerb_eq_of_perm state⟩
  · exact ⟨rfl, rfl, rfl, rfl, rfl, rfl, rfl, rfl, rfl, rfl, rfl, rfl⟩
  · intro ids
    refine ⟨orderVerb_perm state ids, ?_⟩
    exact List.Pairwise.imp (fun h => ladderLt_false_imp_le state _ _ h)
      (orderVerb_sorted state ids)

/-- C7 witness: two permuted inputs produce the same sorted ladder. -/
theorem C7_witness :
    orderVerbCardsForLadder exLadderState ["c3", "c1"]
      = orderVerbCardsForLadder exLadderState ["c1", "c3"] :=
  (C7_ladder_order exLadderState).2.2 ["c3", "c1"] ["c1", "c3"]
    (List.Perm.swap "c1" "c3" [])

/-! ### C9: zero enabled categories -/

/-- C9: for a vocab-only deck whose configured practice filter has zero
categories enabled, the category filter yields the empty list and the
practice queue is the empty list — a normal value, not an error. -/
theorem C9_zero_categories (state : AppState) (deckId : String) (now : ℚ) (limit : ℤ)
    (rs : ℕ → ℕ → ℕ) (filt : VocabPracticeFilter) (cats : CategoryFlags)
    (hvocab : isVocabOnlyDeck state deckId = true)
    (hfilt : state.vocabPracticeFilters deckId = some filt)
    (hcats : filt.categories = some cats)
    (hnone : anyCategoryEnabled cats = false) :
    (∀ ids, getVocabPracticeFilteredIds state deckId ids = []) ∧
    getPracticeCardIdsForDeck state deckId now limit rs = [] := by
  have hfiltered : ∀ ids, getVocabPracticeFilteredIds state deckId ids = [] := by
    intro ids
    unfold getVocabPracticeFilteredIds
    rw [hfilt]
    simp [hcats, hnone]
  obtain ⟨deck, hdeck⟩ : ∃ deck, state.decks deckId = some deck := by
    cases hd : state.decks deckId with
    | none =>
      exfalso
      unfold isVocabOnlyDeck at hvocab
      rw [hd] at hvocab
      simp at hvocab
    | some deck => exact ⟨deck, rfl⟩
  have hall : ∀ id ∈ deck.cardIds,
      ∃ c, state.cards id = some c ∧ c.type = CardType.vocab := by
    unfold isVocabOnlyDeck at hvocab
    rw [hdeck] at hvocab
    have h2 := ((Bool.and_eq_true _ _).mp hvocab).2
    rw [List.all_eq_true] at h2
    intro id hid
    have h3 := h2 id hid
    cases hc : state.cards id with
    | none =>
      rw [hc] at h3
      simp at h3
    | some c =>
      rw [hc] at h3
      exact ⟨c, rfl, by simpa using h3⟩
  refine ⟨hfiltered, ?_⟩
  cases hconj : isVerbConjugationDeck state deckId with
  | false =>
    have hun2 : practiceMergedForDeck state deckId now rs
        = (let baseIds :=
             if isVocabOnlyDeck state deckId then
               getVocabPracticeFilteredIds state deckId deck.cardIds
             else deck.cardIds
           let due := (getDueCardIdsForDeck state deckId now (rs 0)).filter
             (fun id => baseIds.contains id)
           let others := baseIds.filter (fun id => !(due.contains id))
           let grouped := groupByKey (reviewsOf state) others
           let reviewCounts := insSort (fun a b => decide (a < b)) (grouped.map Prod.fst)
           let othersShuffled := (reviewCounts.enum.map (fun p =>
             shuffled (rs (p.1 + 1))
               (insSort (fun a b => decide (dueOf state a now < dueOf state b now))
                 (lookupG p.2 grouped)))).flatten
           due ++ othersShuffled) := by
      unfold practiceMergedForDeck
      rw [hdeck]
    have hdue0 : (getDueCardIdsForDeck state deckId now (rs 0)).filter
        (fun id => List.contains ([] : List String) id) = [] :=
      List.filter_eq_nil_iff.mpr (fun a _ => Bool.false_ne_true)
    have hmerged : practiceMergedForDeck state deckId now rs = [] := by
      rw [hun2, if_pos hvocab, hfiltered]
      simp only [hdue0, List.filter_nil, groupByKey, List.foldl_nil, List.map_nil,
        insSort, List.enum_nil, List.flatten_nil, List.append_nil]
    rw [getPractice_unfold state deckId now limit rs deck hdeck,
      if_neg (by rw [hconj]; exact Bool.false_ne_true), hmerged]
    simp
  | true =>
    have helignil : eligLadderIds state deck = [] := by
      unfold eligLadderIds
      rw [List.filter_eq_nil_iff]
      intro id hid
      obtain ⟨c, hc, htype⟩ := hall id hid
      have helig2 : ladderEligible state id = isGeneratedVerbCard c := by
        unfold ladderEligible
        rw [hc]
      rw [helig2]
      unfold isGeneratedVerbCard
      rw [htype]
      simp
    have hG : practiceGroups state deck now = [] := by
      unfold practiceGroups
      rw [helignil]
      rfl
    rw [getPractice_unfold state deckId now limit rs deck hdeck, if_pos hconj]
    by_cases hlim : limit ≤ 0
    · rw [ladderPractice_unfold state deckId now limit deck hdeck, if_pos hlim]
    · exact ladderPractice_nilres state deckId now limit deck hdeck hG hlim

/-- C9 witness at a concrete vocab deck with an all-disabled filter. -/
theorem C9_witness :
    getPracticeCardIdsForDeck exVocabFilterState "v" 0 5 (fun _ _ => 0) = [] :=
  (C9_zero_categories exVocabFilterState "v" 0 5 (fun _ _ => 0)
    ⟨some allFalseCategories⟩ allFalseCategories rfl rfl rfl rfl).2
